import Mathlib

/-!
# Banded LCS / shortest common supersequence (`main.cpp`)

A shallow embedding of `findLCS`, `backtrackLCS`, `buildSCS`, `mergeTwoStrings`, `mergeAllSeq`
and of the order search loop of `main`, followed by proofs about them.

Modelling conventions.

* A `std::string` is a `List Char`; the table `vector<vector<int>>` is a `List (List Int)`.
* Every string or table access goes through a bounds-checked read or write, so an
  out-of-range index makes the embedded function return `none`.
* `while` loops carry a fuel argument and return `none` when it runs out; the fuel handed
  over by the enclosing function is shown to be enough.  Counted `for` loops use `forRange`.
* The threshold and the band are 32-bit `int` values: `2 * t + 2`, `i - band` and
  `i + band` are computed with two's-complement wrap-around (`wrap32`).  Loop counters and
  string lengths, which the code keeps non-negative, are natural numbers (string lengths
  are taken to fit an `int`); table cells never exceed a string length.
* `backtrackLCS.loopReads` is the loop of `backtrackLCS` with a log of the table cells it
  reads, and `backtrackLCS.step` is one pass of its body; `loopReads_fst` and
  `backtrack_loop_step` tie both to `backtrackLCS.loop`.
* `std::sort` and `std::next_permutation` are library routines; they are embedded as
  insertion sort and as the usual pivot / swap / reverse algorithm, and
  `nextPermutation_true`, `nextPermutation_false` show that the latter produces the
  lexicographic successor.
-/

namespace BandedSCS

/-! ## The program -/

/-- Strings of the program (`std::string`). -/
abbrev Str := List Char

/-- The DP table (`vector<vector<int>>`). -/
abbrev Table := List (List Int)

/-- Counted loop `for (k = lo; k < lo + n; k++) st = body(k, st)`; a failing body aborts. -/
def forRange {σ : Type} (body : Nat → σ → Option σ) : Nat → Nat → σ → Option σ
  | _, 0, st => some st
  | lo, n + 1, st =>
    match body lo st with
    | none => none
    | some st1 => forRange body (lo + 1) n st1

/-- Bounds-checked read of `dp[i][j]`. -/
def readCell (dp : Table) (i j : Nat) : Option Int :=
  match dp[i]? with
  | none => none
  | some row => row[j]?

/-- Bounds-checked write `dp[i][j] = v`. -/
def writeCell (dp : Table) (i j : Nat) (v : Int) : Option Table :=
  match dp[i]? with
  | none => none
  | some row => if j < row.length then some (dp.set i (row.set j v)) else none

/-- Two's-complement wrap of an integer into the range of a 32-bit `int`,
`-2147483648 … 2147483647`. -/
def wrap32 (x : Int) : Int := (x + 2147483648) % 4294967296 - 2147483648

/-- The band of `findLCS`, `int band = 2 * t + 2`, computed in 32-bit `int` arithmetic. -/
def bandOf (t : Int) : Int := wrap32 (wrap32 (2 * t) + 2)

/-- Body of the inner loop of `findLCS` at cell `(i, j)`:
`if (s1[i-1] == s2[j-1]) dp[i][j] = dp[i-1][j-1] + 1; else dp[i][j] = max(dp[i-1][j], dp[i][j-1]);` -/
def findLCS.cell (s1 s2 : Str) (i j : Nat) (dp : Table) : Option Table :=
  match s1[i - 1]?, s2[j - 1]? with
  | some a, some b =>
    if a = b then
      match readCell dp (i - 1) (j - 1) with
      | some d => writeCell dp i j (d + 1)
      | none => none
    else
      match readCell dp (i - 1) j, readCell dp i (j - 1) with
      | some u, some l => writeCell dp i j (max u l)
      | _, _ => none
  | _, _ => none

/-- Body of the outer loop of `findLCS` for row `i`:
`jStart = max(1, i - band); jEnd = min(m2, i + band); for (j = jStart; j <= jEnd; j++) …`,
with `i - band` and `i + band` computed in 32-bit `int` arithmetic. -/
def findLCS.row (s1 s2 : Str) (band : Int) (i : Nat) (dp : Table) : Option Table :=
  let jStart : Int := max 1 (wrap32 ((i : Int) - band))
  let jEnd : Int := min (s2.length : Int) (wrap32 ((i : Int) + band))
  forRange (fun j d => findLCS.cell s1 s2 i j d) jStart.toNat (jEnd + 1 - jStart).toNat dp

/-- The banded LCS engine `findLCS`.  The table passed in is discarded by `dp.assign`; the
result is the returned value `dp[m1][m2]` together with the table left in `dp`. -/
def findLCS (s1 s2 : Str) (t : Int) (_dp : Table) : Option (Int × Table) :=
  let m1 := s1.length
  let m2 := s2.length
  let dp0 : Table := List.replicate (m1 + 1) (List.replicate (m2 + 1) 0)
  let band : Int := bandOf t
  match forRange (fun i d => findLCS.row s1 s2 band i d) 1 m1 dp0 with
  | none => none
  | some dp =>
    match readCell dp m1 m2 with
    | none => none
    | some r => some (r, dp)

/-- The loop `while (i > 0 && j > 0)` of `backtrackLCS`; `lcs` collects the characters
tail first. -/
def backtrackLCS.loop (s1 s2 : Str) (dp : Table) : Nat → Nat → Nat → Str → Option Str
  | 0, _, _, _ => none
  | fuel + 1, i, j, lcs =>
    if 0 < i ∧ 0 < j then
      match s1[i - 1]?, s2[j - 1]? with
      | some a, some b =>
        if a = b then backtrackLCS.loop s1 s2 dp fuel (i - 1) (j - 1) (lcs ++ [a])
        else
          match readCell dp (i - 1) j, readCell dp i (j - 1) with
          | some u, some l =>
            if u > l then backtrackLCS.loop s1 s2 dp fuel (i - 1) j lcs
            else backtrackLCS.loop s1 s2 dp fuel i (j - 1) lcs
          | _, _ => none
      | _, _ => none
    else some lcs

/-- The LCS backtracker `backtrackLCS`: walk back from `(m1, m2)`, then reverse. -/
def backtrackLCS (s1 s2 : Str) (dp : Table) : Option Str :=
  match backtrackLCS.loop s1 s2 dp (s1.length + s2.length + 1) s1.length s2.length [] with
  | none => none
  | some lcs => some lcs.reverse

/-- Inner copy loop of `buildSCS`: `while (i < s.size() && s[i] != c) scs.push_back(s[i++]);`.
Returns the new cursor and the extended output. -/
def copyUntil (s : Str) (c : Char) : Nat → Nat → Str → Option (Nat × Str)
  | 0, _, _ => none
  | fuel + 1, i, scs =>
    if i < s.length then
      match s[i]? with
      | none => none
      | some x => if x ≠ c then copyUntil s c fuel (i + 1) (scs ++ [x]) else some (i, scs)
    else some (i, scs)

/-- Final copy loops of `buildSCS`: `while (i < s.size()) scs.push_back(s[i++]);`. -/
def copyRest (s : Str) : Nat → Nat → Str → Option Str
  | 0, _, _ => none
  | fuel + 1, i, scs =>
    if i < s.length then
      match s[i]? with
      | none => none
      | some x => copyRest s fuel (i + 1) (scs ++ [x])
    else some scs

/-- Main loop of `buildSCS`: `while (i < s1.size() && j < s2.size() && p < lcs.size())`. -/
def buildSCS.loop (s1 s2 lcs : Str) : Nat → Nat → Nat → Nat → Str → Option (Nat × Nat × Str)
  | 0, _, _, _, _ => none
  | fuel + 1, i, j, p, scs =>
    if i < s1.length ∧ j < s2.length ∧ p < lcs.length then do
      let c ← lcs[p]?
      let (i1, scs1) ← copyUntil s1 c (s1.length + 1) i scs
      let (j1, scs2) ← copyUntil s2 c (s2.length + 1) j scs1
      buildSCS.loop s1 s2 lcs fuel (i1 + 1) (j1 + 1) (p + 1) (scs2 ++ [c])
    else some (i, j, scs)

/-- The SCS builder `buildSCS`. -/
def buildSCS (s1 s2 lcs : Str) : Option Str := do
  let (i, j, scs) ← buildSCS.loop s1 s2 lcs (lcs.length + 1) 0 0 0 []
  let scs1 ← copyRest s1 (s1.length + 1) i scs
  copyRest s2 (s2.length + 1) j scs1

/-- Pairwise merge `mergeTwoStrings`: `findLCS`, then `backtrackLCS`, then `buildSCS`. -/
def mergeTwoStrings (s1 s2 : Str) (t : Int) : Option Str :=
  match findLCS s1 s2 t [] with
  | none => none
  | some (_, dp) =>
    match backtrackLCS s1 s2 dp with
    | none => none
    | some lcs => buildSCS s1 s2 lcs

/-- Chain merge `mergeAllSeq`: `result = seqs[0]`, then
`for (i = 1; i < seqs.size(); i++) result = mergeTwoStrings(result, seqs[i], t);`. -/
def mergeAllSeq (seqs : List Str) (t : Int) : Option Str :=
  if seqs.isEmpty then some []
  else
    match seqs[0]? with
    | none => none
    | some first =>
      forRange (fun i result =>
        match seqs[i]? with
        | none => none
        | some s => mergeTwoStrings result s t) 1 (seqs.length - 1) first

/-- Backward scan of `std::next_permutation` for the last position whose element is smaller
than its successor.  The first argument is the unscanned part of the range, reversed; the
second is the part scanned so far. -/
def nextPermutation.findPivot {α : Type} [LinearOrder α] :
    List α → List α → Option (List α × α × List α)
  | [], _ => none
  | x :: rest, [] => nextPermutation.findPivot rest [x]
  | x :: rest, y :: suf =>
    if x < y then some (rest, x, y :: suf)
    else nextPermutation.findPivot rest (x :: y :: suf)

/-- Swap step of `std::next_permutation`, on the scanned part reversed: the first element
greater than the pivot `x` is taken out and `x` is put in its place. -/
def nextPermutation.swapPivot {α : Type} [LinearOrder α] (x : α) : List α → α × List α
  | [] => (x, [])
  | y :: ys =>
    if x < y then (y, x :: ys)
    else ((nextPermutation.swapPivot x ys).1, y :: (nextPermutation.swapPivot x ys).2)

/-- The library routine `std::next_permutation`: the rearranged range and the returned flag.
When no pivot exists the range is reversed and the flag is `false`. -/
def nextPermutation {α : Type} [LinearOrder α] (l : List α) : List α × Bool :=
  match nextPermutation.findPivot l.reverse [] with
  | none => (l.reverse, false)
  | some (revPre, x, suf) =>
    (revPre.reverse ++
      (nextPermutation.swapPivot x suf.reverse).1 :: (nextPermutation.swapPivot x suf.reverse).2,
      true)

/-- The library routine `std::sort` on the list of sequences (ascending, strings compared
lexicographically as by `operator<`). -/
def sortSeqs (seqs : List Str) : List Str := List.insertionSort (fun a b => a ≤ b) seqs

/-- Body of the `do … while` loop of `main`:
`current = mergeAllSeq(curr_seq, t); if (bestSCS.empty() || current.size() < bestSCS.size()) bestSCS = current;`.
Returns the new `bestSCS`. -/
def searchBody (t : Int) (curr : List Str) (bestSCS : Str) : Option Str :=
  match mergeAllSeq curr t with
  | none => none
  | some current =>
    if bestSCS.isEmpty || decide (current.length < bestSCS.length) then some current
    else some bestSCS

/-- The loop `do { … } while (std::next_permutation(…))` of `main`. -/
def searchLoop (t : Int) : Nat → List Str → Str → Option Str
  | 0, _, _ => none
  | fuel + 1, curr, bestSCS =>
    match searchBody t curr bestSCS with
    | none => none
    | some best1 =>
      match nextPermutation curr with
      | (next, true) => searchLoop t fuel next best1
      | (_, false) => some best1

/-- Order search of `main`: sort, then run the loop from an empty `bestSCS`; the result is
the final `bestSCS`. -/
def orderSearch (seqs : List Str) (t : Int) : Option Str :=
  searchLoop t seqs.length.factorial (sortSeqs seqs) []

/-- The loop of `main` observed after at most `n` passes of its body: the value of
`bestSCS` at that point (the final value when the loop ends earlier). -/
def searchPasses (t : Int) : Nat → List Str → Str → Option Str
  | 0, _, bestSCS => some bestSCS
  | n + 1, curr, bestSCS =>
    match searchBody t curr bestSCS with
    | none => none
    | some best1 =>
      match nextPermutation curr with
      | (next, true) => searchPasses t n next best1
      | (_, false) => some best1

/-- The value of `bestSCS` after the first `n` arrangements have been processed by the
search loop of `main`. -/
def bestAfter (seqs : List Str) (t : Int) (n : Nat) : Option Str :=
  searchPasses t n (sortSeqs seqs) []

/-! ## Specification-level notions and pure readings -/

/-- Predicate saying that `n` is the length of a longest common subsequence of `a` and `b`:
some common subsequence has length `n` and none is longer. -/
def IsLCSLength (a b : Str) (n : Nat) : Prop :=
  (∃ c : Str, c.Sublist a ∧ c.Sublist b ∧ c.length = n) ∧
    ∀ c : Str, c.Sublist a → c.Sublist b → c.length ≤ n

/-- Functional reading of `buildSCS` on the unread parts of `s1`, `s2` and `lcs`. -/
def scsList : Str → Str → Str → Str
  | s1, s2, [] => s1 ++ s2
  | s1, s2, c :: lcs =>
    if s1 = [] ∨ s2 = [] then s1 ++ s2
    else s1.takeWhile (fun x => x != c) ++ (s2.takeWhile (fun x => x != c) ++
      (c :: scsList (s1.dropWhile (fun x => x != c)).tail (s2.dropWhile (fun x => x != c)).tail lcs))

/-- Band membership of cell `(i, j)`: `jStart ≤ j ≤ jEnd` for row `i`, with `jStart` and
`jEnd` as `findLCS` computes them. -/
def inBand (band : Int) (m2 i j : Nat) : Prop :=
  max 1 (wrap32 ((i : Int) - band)) ≤ (j : Int) ∧
    (j : Int) ≤ min (m2 : Int) (wrap32 ((i : Int) + band))

instance (band : Int) (m2 i j : Nat) : Decidable (inBand band m2 i j) := by
  unfold inBand
  infer_instance

/-- Value the banded fill of `findLCS` leaves in cell `(i, j)`: the recurrence inside the
band, the initial 0 elsewhere. -/
def bandVal (s1 s2 : Str) (band : Int) : Nat → Nat → Int
  | 0, _ => 0
  | _ + 1, 0 => 0
  | i + 1, j + 1 =>
    if inBand band s2.length (i + 1) (j + 1) then
      if s1[i]? = s2[j]? then bandVal s1 s2 band i j + 1
      else max (bandVal s1 s2 band i (j + 1)) (bandVal s1 s2 band (i + 1) j)
    else 0
termination_by i j => (i, j)

/-- Unbanded LCS recurrence on prefix lengths. -/
def lcsVal (s1 s2 : Str) : Nat → Nat → Nat
  | 0, _ => 0
  | _ + 1, 0 => 0
  | i + 1, j + 1 =>
    if s1[i]? = s2[j]? then lcsVal s1 s2 i j + 1
    else max (lcsVal s1 s2 i (j + 1)) (lcsVal s1 s2 (i + 1) j)
termination_by i j => (i, j)

/-- Table shape `(m1 + 1) × (m2 + 1)`. -/
def TableDims (dp : Table) (m1 m2 : Nat) : Prop :=
  dp.length = m1 + 1 ∧ ∀ row ∈ dp, row.length = m2 + 1

/-- Loop invariant of the fill: cells before `(i, j)` in row-major order hold their banded
value, the others still hold 0. -/
def Filled (s1 s2 : Str) (band : Int) (dp : Table) (i j : Nat) : Prop :=
  TableDims dp s1.length s2.length ∧
    ∀ a b, a ≤ s1.length → b ≤ s2.length →
      readCell dp a b = some (if a < i ∨ (a = i ∧ b < j) then bandVal s1 s2 band a b else 0)

/-- The table `findLCS` leaves behind: every cell holds its banded value. -/
def BandTable (s1 s2 : Str) (band : Int) (dp : Table) : Prop :=
  TableDims dp s1.length s2.length ∧
    ∀ a b, a ≤ s1.length → b ≤ s2.length → readCell dp a b = some (bandVal s1 s2 band a b)

/-- Result of `mergeAllSeq` as a plain string (`mergeAllSeq` never fails, see
`mergeAllSeq_eq_chain`). -/
def chain (t : Int) (q : List Str) : Str := (mergeAllSeq q t).getD []

/-- The update of `bestSCS` made by the loop body of `main`. -/
def keepBest (bestSCS current : Str) : Str :=
  if bestSCS.isEmpty || decide (current.length < bestSCS.length) then current else bestSCS

/-- Number of arrangements of `seqs` not yet passed when the loop is at `curr`. -/
def remaining (seqs curr : List Str) : Nat :=
  seqs.permutations.countP (fun q => decide (curr ≤ q))

/-- State after the pass on `curr`: `best` is the chain merge of `p`, the lexicographically
first arrangement of minimum merge length among those up to `curr`. -/
def Passed (seqs : List Str) (t : Int) (curr : List Str) (best : Str) (p : List Str) : Prop :=
  p.Perm seqs ∧ p ≤ curr ∧ chain t p = best ∧
    (∀ q : List Str, q.Perm seqs → q ≤ curr → best.length ≤ (chain t q).length) ∧
    (∀ q : List Str, q.Perm seqs → q ≤ curr → (chain t q).length = best.length → p ≤ q)

/-- State before the pass on `curr`: either no pass was made yet and `curr` is the first
arrangement, or `best` comes from the arrangements strictly before `curr`. -/
def Pending (seqs : List Str) (t : Int) (curr : List Str) (best : Str) : Prop :=
  (best = [] ∧ ∀ q : List Str, q.Perm seqs → curr ≤ q) ∨
    ∃ p : List Str, p.Perm seqs ∧ p < curr ∧ chain t p = best ∧
      (∀ q : List Str, q.Perm seqs → q < curr → best.length ≤ (chain t q).length) ∧
      (∀ q : List Str, q.Perm seqs → q < curr → (chain t q).length = best.length → p ≤ q)

/-! ## The backtracker, instrumented and step by step -/

/-- The loop of `backtrackLCS` instrumented with the list of table cells whose value it
reads (`dp_vec[i - 1][j]` and `dp_vec[i][j - 1]` in the comparison), in reading order.
Control flow and collected string are those of `backtrackLCS.loop`. -/
def backtrackLCS.loopReads (s1 s2 : Str) (dp : Table) :
    Nat → Nat → Nat → Str → List (Nat × Nat) → Option (Str × List (Nat × Nat))
  | 0, _, _, _, _ => none
  | fuel + 1, i, j, lcs, reads =>
    if 0 < i ∧ 0 < j then
      match s1[i - 1]?, s2[j - 1]? with
      | some a, some b =>
        if a = b then backtrackLCS.loopReads s1 s2 dp fuel (i - 1) (j - 1) (lcs ++ [a]) reads
        else
          match readCell dp (i - 1) j, readCell dp i (j - 1) with
          | some u, some l =>
            if u > l then
              backtrackLCS.loopReads s1 s2 dp fuel (i - 1) j lcs (reads ++ [(i - 1, j), (i, j - 1)])
            else
              backtrackLCS.loopReads s1 s2 dp fuel i (j - 1) lcs (reads ++ [(i - 1, j), (i, j - 1)])
          | _, _ => none
      | _, _ => none
    else some (lcs, reads)

/-- The table cells read by `backtrackLCS` when it runs on the table filled by
`findLCS s1 s2 t`. -/
def backtrackReads (s1 s2 : Str) (t : Int) : Option (List (Nat × Nat)) :=
  match findLCS s1 s2 t [] with
  | none => none
  | some (_, dp) =>
    match backtrackLCS.loopReads s1 s2 dp (s1.length + s2.length + 1) s1.length s2.length [] [] with
    | none => none
    | some (_, reads) => some reads


theorem copyUntil_eq (s : Str) (c : Char) :
    ∀ (fuel i : Nat) (scs : Str), s.length ≤ fuel + i →
      copyUntil s c (fuel + 1) i scs =
        some (i + ((s.drop i).takeWhile (fun x => x != c)).length,
          scs ++ (s.drop i).takeWhile (fun x => x != c)) := by
  intro fuel
  induction fuel with
  | zero =>
    intro i scs h
    have hi : ¬ i < s.length := by omega
    unfold copyUntil
    rw [if_neg hi, List.drop_of_length_le (by omega)]
    simp
  | succ n ih =>
    intro i scs h
    unfold copyUntil
    by_cases hi : i < s.length
    · rw [if_pos hi, List.getElem?_eq_getElem hi]
      have hd : s.drop i = s[i] :: s.drop (i + 1) := List.drop_eq_getElem_cons hi
      by_cases hx : s[i] = c
      · simp [hx, hd]
      · simp only [ne_eq, hx, not_false_eq_true, ↓reduceIte]
        rw [ih (i + 1) _ (by omega), hd]
        have hb : (s[i] != c) = true := by simpa using hx
        simp only [List.takeWhile_cons, hb, ↓reduceIte, List.length_cons, List.append_assoc,
          List.singleton_append]
        congr 2
        omega
    · rw [if_neg hi, List.drop_of_length_le (by omega)]
      simp

theorem copyRest_eq (s : Str) :
    ∀ (fuel i : Nat) (scs : Str), s.length ≤ fuel + i →
      copyRest s (fuel + 1) i scs = some (scs ++ s.drop i) := by
  intro fuel
  induction fuel with
  | zero =>
    intro i scs h
    have hi : ¬ i < s.length := by omega
    unfold copyRest
    rw [if_neg hi, List.drop_of_length_le (by omega)]
    simp
  | succ n ih =>
    intro i scs h
    unfold copyRest
    by_cases hi : i < s.length
    · rw [if_pos hi, List.getElem?_eq_getElem hi]
      simp only
      rw [ih (i + 1) _ (by omega), List.drop_eq_getElem_cons hi]
      simp
    · rw [if_neg hi, List.drop_of_length_le (by omega)]
      simp

theorem drop_succ_of_dropWhile (s : Str) (q : Char → Bool) (i : Nat) :
    s.drop (i + ((s.drop i).takeWhile q).length + 1) = ((s.drop i).dropWhile q).tail := by
  have key : ∀ l : Str, l.drop (l.takeWhile q).length = l.dropWhile q := by
    intro l
    induction l with
    | nil => rfl
    | cons a l ih =>
      by_cases ha : q a = true
      · simp [List.takeWhile_cons, List.dropWhile_cons, ha, ih]
      · simp [List.takeWhile_cons, List.dropWhile_cons, ha]
  rw [← key (s.drop i), List.tail_drop, List.drop_drop, Nat.add_assoc]

theorem loop_eq (s1 s2 lcs : Str) :
    ∀ (fuel i j p : Nat) (scs : Str), lcs.length ≤ fuel + p →
      ∃ i1 j1 scs1, buildSCS.loop s1 s2 lcs (fuel + 1) i j p scs = some (i1, j1, scs1) ∧
        scs1 ++ (s1.drop i1 ++ s2.drop j1) =
          scs ++ scsList (s1.drop i) (s2.drop j) (lcs.drop p) := by
  intro fuel
  induction fuel with
  | zero =>
    intro i j p scs h
    have hp : ¬ p < lcs.length := by omega
    refine ⟨i, j, scs, ?_, ?_⟩
    · unfold buildSCS.loop
      rw [if_neg (by tauto)]
    · rw [List.drop_of_length_le (by omega : lcs.length ≤ p)]
      simp [scsList]
  | succ n ih =>
    intro i j p scs h
    by_cases hc : i < s1.length ∧ j < s2.length ∧ p < lcs.length
    · obtain ⟨hi, hj, hp⟩ := hc
      unfold buildSCS.loop
      rw [if_pos ⟨hi, hj, hp⟩, List.getElem?_eq_getElem hp]
      simp only [Option.some_bind, Option.bind_eq_bind]
      rw [copyUntil_eq s1 _ s1.length i scs (by omega)]
      simp only [Option.some_bind]
      rw [copyUntil_eq s2 _ s2.length j _ (by omega)]
      simp only [Option.some_bind]
      obtain ⟨i1, j1, scs1, he, hs⟩ := ih (i + ((s1.drop i).takeWhile (fun x => x != lcs[p])).length + 1)
        (j + ((s2.drop j).takeWhile (fun x => x != lcs[p])).length + 1) (p + 1)
        (scs ++ (s1.drop i).takeWhile (fun x => x != lcs[p]) ++
          (s2.drop j).takeWhile (fun x => x != lcs[p]) ++ [lcs[p]]) (by omega)
      refine ⟨i1, j1, scs1, he, ?_⟩
      rw [hs, drop_succ_of_dropWhile, drop_succ_of_dropWhile, List.drop_eq_getElem_cons hp]
      have h1 : s1.drop i ≠ [] := by
        intro h0
        have := congrArg List.length h0
        simp at this
        omega
      have h2 : s2.drop j ≠ [] := by
        intro h0
        have := congrArg List.length h0
        simp at this
        omega
      simp [scsList, h1, h2]
    · refine ⟨i, j, scs, ?_, ?_⟩
      · unfold buildSCS.loop
        rw [if_neg hc]
      · by_cases hp : p < lcs.length
        · rw [List.drop_eq_getElem_cons hp]
          have : s1.drop i = [] ∨ s2.drop j = [] := by
            by_cases hi : i < s1.length
            · right
              exact List.drop_of_length_le (by
                by_contra hh
                exact hc ⟨hi, by omega, hp⟩)
            · left
              exact List.drop_of_length_le (by omega)
          simp only [scsList]
          rw [if_pos this]
        · rw [List.drop_of_length_le (by omega : lcs.length ≤ p)]
          simp [scsList]

theorem buildSCS_eq (s1 s2 lcs : Str) : buildSCS s1 s2 lcs = some (scsList s1 s2 lcs) := by
  obtain ⟨i1, j1, scs1, he, hs⟩ := loop_eq s1 s2 lcs lcs.length 0 0 0 [] (by omega)
  unfold buildSCS
  rw [he]
  simp only [Option.some_bind, Option.bind_eq_bind]
  rw [copyRest_eq s1 s1.length i1 scs1 (by omega)]
  simp only [Option.some_bind]
  rw [copyRest_eq s2 s2.length j1 _ (by omega)]
  simp at hs
  simp [hs]


theorem dropWhile_of_cons_sublist {c : Char} {l : Str} :
    ∀ {s : Str}, (c :: l).Sublist s →
      ∃ r, s.dropWhile (fun x => x != c) = c :: r ∧ l.Sublist r := by
  intro s
  induction s with
  | nil => intro h; cases h
  | cons a s ih =>
    intro h
    by_cases ha : a = c
    · subst ha
      refine ⟨s, by simp [List.dropWhile_cons], ?_⟩
      cases h with
      | cons _ h1 => exact (List.sublist_cons_self _ _).trans h1
      | cons₂ _ h1 => exact h1
    · cases h with
      | cons _ h1 =>
        obtain ⟨r, hr, hl⟩ := ih h1
        exact ⟨r, by simp [List.dropWhile_cons, ha, hr], hl⟩
      | cons₂ _ h1 => exact absurd rfl ha

theorem scsList_spec :
    ∀ (lcs s1 s2 : Str), lcs.Sublist s1 → lcs.Sublist s2 →
      s1.Sublist (scsList s1 s2 lcs) ∧ s2.Sublist (scsList s1 s2 lcs) ∧
        (scsList s1 s2 lcs).length + lcs.length = s1.length + s2.length := by
  intro lcs
  induction lcs with
  | nil =>
    intro s1 s2 _ _
    simp [scsList]
  | cons c lcs ih =>
    intro s1 s2 h1 h2
    obtain ⟨r1, hr1, hl1⟩ := dropWhile_of_cons_sublist h1
    obtain ⟨r2, hr2, hl2⟩ := dropWhile_of_cons_sublist h2
    have e1 := List.takeWhile_append_dropWhile (fun x => x != c) s1
    have e2 := List.takeWhile_append_dropWhile (fun x => x != c) s2
    rw [hr1] at e1
    rw [hr2] at e2
    have n1 : s1 ≠ [] := by rintro rfl; cases h1
    have n2 : s2 ≠ [] := by rintro rfl; cases h2
    obtain ⟨ha, hb, hlen⟩ := ih r1 r2 hl1 hl2
    simp only [scsList, n1, n2, or_self, ↓reduceIte, hr1, hr2, List.tail_cons]
    refine ⟨?_, ?_, ?_⟩
    · conv_lhs => rw [← e1]
      exact List.Sublist.append (List.Sublist.refl _)
        ((List.Sublist.cons₂ c ha).trans (List.sublist_append_right _ _))
    · conv_lhs => rw [← e2]
      exact (List.Sublist.append (List.Sublist.refl _) (List.Sublist.cons₂ c hb)).trans
        (List.sublist_append_right _ _)
    · have l1 := congrArg List.length e1
      have l2 := congrArg List.length e2
      simp only [List.length_append, List.length_cons] at l1 l2 ⊢
      omega

/-! ### 32-bit arithmetic without overflow -/

theorem wrap32_eq_self {x : Int} (h1 : -2147483648 ≤ x) (h2 : x ≤ 2147483647) :
    wrap32 x = x := by
  unfold wrap32
  omega

theorem bandOf_eq {t : Int} (h1 : -2147483648 ≤ 2 * t) (h2 : 2 * t + 2 ≤ 2147483647) :
    bandOf t = 2 * t + 2 := by
  unfold bandOf
  rw [wrap32_eq_self h1 (by omega), wrap32_eq_self (by omega) h2]

theorem bandVal_zero_left (s1 s2 : Str) (band : Int) (j : Nat) : bandVal s1 s2 band 0 j = 0 := by
  unfold bandVal; rfl

theorem bandVal_zero_right (s1 s2 : Str) (band : Int) (i : Nat) : bandVal s1 s2 band i 0 = 0 := by
  cases i <;> (unfold bandVal; rfl)

theorem bandVal_succ (s1 s2 : Str) (band : Int) (i j : Nat) :
    bandVal s1 s2 band (i + 1) (j + 1) =
      if inBand band s2.length (i + 1) (j + 1) then
        if s1[i]? = s2[j]? then bandVal s1 s2 band i j + 1
        else max (bandVal s1 s2 band i (j + 1)) (bandVal s1 s2 band (i + 1) j)
      else 0 := by
  rw [bandVal]

theorem lcsVal_zero_left (s1 s2 : Str) (j : Nat) : lcsVal s1 s2 0 j = 0 := by
  unfold lcsVal; rfl

theorem lcsVal_zero_right (s1 s2 : Str) (i : Nat) : lcsVal s1 s2 i 0 = 0 := by
  cases i <;> (unfold lcsVal; rfl)

theorem lcsVal_succ (s1 s2 : Str) (i j : Nat) :
    lcsVal s1 s2 (i + 1) (j + 1) =
      if s1[i]? = s2[j]? then lcsVal s1 s2 i j + 1
      else max (lcsVal s1 s2 i (j + 1)) (lcsVal s1 s2 (i + 1) j) := by
  rw [lcsVal]

theorem bandVal_of_not_inBand (s1 s2 : Str) (band : Int) (i j : Nat)
    (h : ¬ inBand band s2.length i j) : bandVal s1 s2 band i j = 0 := by
  cases i with
  | zero => exact bandVal_zero_left _ _ _ _
  | succ i =>
    cases j with
    | zero => exact bandVal_zero_right _ _ _ _
    | succ j => rw [bandVal_succ, if_neg h]

/-! ### Table reads and writes -/

theorem readCell_of_dims {dp : Table} {m1 m2 : Nat} (hd : TableDims dp m1 m2) {a b : Nat}
    (ha : a ≤ m1) (hb : b ≤ m2) : ∃ v, readCell dp a b = some v := by
  have hlt : a < dp.length := by rw [hd.1]; omega
  have hrow := hd.2 (dp[a]) (List.getElem_mem hlt)
  unfold readCell
  rw [List.getElem?_eq_getElem hlt]
  exact ⟨(dp[a])[b], List.getElem?_eq_getElem (by omega)⟩

theorem writeCell_spec {dp : Table} {m1 m2 : Nat} (hd : TableDims dp m1 m2) {i j : Nat}
    (hi : i ≤ m1) (hj : j ≤ m2) (v : Int) :
    ∃ dp1, writeCell dp i j v = some dp1 ∧ TableDims dp1 m1 m2 ∧
      ∀ a b, readCell dp1 a b = if a = i ∧ b = j then some v else readCell dp a b := by
  have hlt : i < dp.length := by rw [hd.1]; omega
  have hrow := hd.2 (dp[i]) (List.getElem_mem hlt)
  refine ⟨dp.set i ((dp[i]).set j v), ?_, ⟨?_, ?_⟩, ?_⟩
  · unfold writeCell
    rw [List.getElem?_eq_getElem hlt]
    simp only
    rw [if_pos (by omega)]
  · rw [List.length_set]; exact hd.1
  · intro row hmem
    rcases List.mem_or_eq_of_mem_set hmem with h | h
    · exact hd.2 row h
    · rw [h, List.length_set]; exact hrow
  · intro a b
    unfold readCell
    by_cases hai : a = i
    · subst hai
      rw [List.getElem?_set_self hlt, List.getElem?_eq_getElem hlt]
      simp only [true_and]
      by_cases hbj : b = j
      · subst hbj
        rw [if_pos rfl, List.getElem?_set_self (by omega)]
      · rw [if_neg hbj, List.getElem?_set_ne (Ne.symm hbj)]
    · rw [List.getElem?_set_ne (Ne.symm hai), if_neg (by tauto)]

/-! ### The fill loops of `findLCS` -/

theorem inBand_bounds {band : Int} {m2 i j : Nat} (h : inBand band m2 i j) : 1 ≤ j ∧ j ≤ m2 := by
  unfold inBand at h
  omega

theorem cell_step (s1 s2 : Str) (band : Int) {dp : Table} {i j : Nat}
    (hf : Filled s1 s2 band dp i j) (hi1 : 1 ≤ i) (hi2 : i ≤ s1.length)
    (hb : inBand band s2.length i j) :
    ∃ dp1, findLCS.cell s1 s2 i j dp = some dp1 ∧ Filled s1 s2 band dp1 i (j + 1) := by
  obtain ⟨hj1, hj2⟩ := inBand_bounds hb
  obtain ⟨hd, hv⟩ := hf
  obtain ⟨i, rfl⟩ : ∃ k, i = k + 1 := ⟨i - 1, by omega⟩
  obtain ⟨j, rfl⟩ : ∃ k, j = k + 1 := ⟨j - 1, by omega⟩
  have hs1 : s1[i]? = some s1[i] := List.getElem?_eq_getElem (by omega)
  have hs2 : s2[j]? = some s2[j] := List.getElem?_eq_getElem (by omega)
  have r1 := hv i j (by omega) (by omega)
  have r2 := hv i (j + 1) (by omega) (by omega)
  have r3 := hv (i + 1) j (by omega) (by omega)
  rw [if_pos (by omega)] at r1 r2 r3
  have key : ∀ v, v = bandVal s1 s2 band (i + 1) (j + 1) →
      ∃ dp1, writeCell dp (i + 1) (j + 1) v = some dp1 ∧
        Filled s1 s2 band dp1 (i + 1) (j + 1 + 1) := by
    intro v hvv
    obtain ⟨dp1, hw, hd1, hr⟩ := writeCell_spec hd hi2 hj2 v
    refine ⟨dp1, hw, hd1, ?_⟩
    intro a b ha hb2
    rw [hr a b]
    by_cases hab : a = i + 1 ∧ b = j + 1
    · rw [if_pos hab, hab.1, hab.2, if_pos (by omega), hvv]
    · rw [if_neg hab, hv a b ha hb2]
      by_cases hc : a < i + 1 ∨ (a = i + 1 ∧ b < j + 1)
      · rw [if_pos hc, if_pos (by omega)]
      · rw [if_neg hc, if_neg (by omega)]
  unfold findLCS.cell
  simp only [Nat.add_sub_cancel, hs1, hs2]
  by_cases hab : s1[i] = s2[j]
  · rw [if_pos hab, r1]
    apply key
    rw [bandVal_succ, if_pos hb, hs1, hs2, if_pos (by rw [hab])]
  · rw [if_neg hab, r2, r3]
    apply key
    rw [bandVal_succ, if_pos hb, hs1, hs2, if_neg (by simpa using hab)]

theorem row_loop (s1 s2 : Str) (band : Int) (i : Nat) (hi1 : 1 ≤ i) (hi2 : i ≤ s1.length) :
    ∀ (n j0 : Nat) (dp : Table), Filled s1 s2 band dp i j0 →
      (∀ j, j0 ≤ j → j < j0 + n → inBand band s2.length i j) →
      ∃ dp1, forRange (fun j d => findLCS.cell s1 s2 i j d) j0 n dp = some dp1 ∧
        Filled s1 s2 band dp1 i (j0 + n) := by
  intro n
  induction n with
  | zero =>
    intro j0 dp hf _
    exact ⟨dp, rfl, hf⟩
  | succ n ih =>
    intro j0 dp hf hb
    obtain ⟨dp1, h1, hf1⟩ := cell_step s1 s2 band hf hi1 hi2 (hb j0 (le_refl _) (by omega))
    obtain ⟨dp2, h2, hf2⟩ := ih (j0 + 1) dp1 hf1 (fun j hj hj2 => hb j (by omega) (by omega))
    refine ⟨dp2, ?_, ?_⟩
    · unfold forRange
      simp only [h1]
      exact h2
    · have e : j0 + (n + 1) = j0 + 1 + n := by omega
      rw [e]
      exact hf2

theorem Filled.congr {s1 s2 : Str} {band : Int} {dp : Table} {i j i1 j1 : Nat}
    (hf : Filled s1 s2 band dp i j)
    (h : ∀ a b, a ≤ s1.length → b ≤ s2.length →
      (if a < i ∨ (a = i ∧ b < j) then bandVal s1 s2 band a b else 0) =
        (if a < i1 ∨ (a = i1 ∧ b < j1) then bandVal s1 s2 band a b else 0)) :
    Filled s1 s2 band dp i1 j1 :=
  ⟨hf.1, fun a b ha hb => by rw [hf.2 a b ha hb, h a b ha hb]⟩

theorem row_step (s1 s2 : Str) (band : Int) (i : Nat) (hi1 : 1 ≤ i) (hi2 : i ≤ s1.length)
    (dp : Table) (hf : Filled s1 s2 band dp i 0) :
    ∃ dp1, findLCS.row s1 s2 band i dp = some dp1 ∧ Filled s1 s2 band dp1 (i + 1) 0 := by
  have hstart : Filled s1 s2 band dp i (max 1 (wrap32 ((i : Int) - band))).toNat := by
    refine hf.congr ?_
    intro a b _ _
    by_cases ha : a < i
    · rw [if_pos (Or.inl ha), if_pos (Or.inl ha)]
    · by_cases hab : a = i ∧ b < (max 1 (wrap32 ((i : Int) - band))).toNat
      · rw [if_neg (by omega), if_pos (Or.inr hab), hab.1]
        symm
        apply bandVal_of_not_inBand
        unfold inBand
        omega
      · rw [if_neg (by omega), if_neg (by tauto)]
  obtain ⟨dp1, h1, hf1⟩ := row_loop s1 s2 band i hi1 hi2
    (min (s2.length : Int) (wrap32 ((i : Int) + band)) + 1 - max 1 (wrap32 ((i : Int) - band))).toNat
    (max 1 (wrap32 ((i : Int) - band))).toNat dp hstart (by
      intro j hj1 hj2
      unfold inBand
      omega)
  refine ⟨dp1, h1, hf1.congr ?_⟩
  intro a b _ _
  by_cases ha : a < i
  · rw [if_pos (Or.inl ha), if_pos (by omega)]
  · by_cases hai : a = i
    · subst hai
      have hR : (if a < a + 1 ∨ (a = a + 1 ∧ b < 0) then bandVal s1 s2 band a b else 0) =
          bandVal s1 s2 band a b := if_pos (by omega)
      rw [hR]
      by_cases hb : b < (max 1 (wrap32 ((a : Int) - band))).toNat +
          (min (s2.length : Int) (wrap32 ((a : Int) + band)) + 1 - max 1 (wrap32 ((a : Int) - band))).toNat
      · rw [if_pos (Or.inr ⟨rfl, hb⟩)]
      · rw [if_neg (by omega)]
        symm
        apply bandVal_of_not_inBand
        unfold inBand
        omega
    · rw [if_neg (by omega), if_neg (by omega)]

theorem outer_loop (s1 s2 : Str) (band : Int) :
    ∀ (n i0 : Nat) (dp : Table), 1 ≤ i0 → i0 + n ≤ s1.length + 1 →
      Filled s1 s2 band dp i0 0 →
      ∃ dp1, forRange (fun i d => findLCS.row s1 s2 band i d) i0 n dp = some dp1 ∧
        Filled s1 s2 band dp1 (i0 + n) 0 := by
  intro n
  induction n with
  | zero =>
    intro i0 dp _ _ hf
    exact ⟨dp, rfl, hf⟩
  | succ n ih =>
    intro i0 dp h1 h2 hf
    obtain ⟨dp1, e1, hf1⟩ := row_step s1 s2 band i0 h1 (by omega) dp hf
    obtain ⟨dp2, e2, hf2⟩ := ih (i0 + 1) dp1 (by omega) (by omega) hf1
    refine ⟨dp2, ?_, ?_⟩
    · unfold forRange
      simp only [e1]
      exact e2
    · have e : i0 + (n + 1) = i0 + 1 + n := by omega
      rw [e]
      exact hf2

theorem filled_init (s1 s2 : Str) (band : Int) :
    Filled s1 s2 band (List.replicate (s1.length + 1) (List.replicate (s2.length + 1) 0)) 1 0 := by
  refine ⟨⟨by simp, ?_⟩, ?_⟩
  · intro row hrow
    rw [(List.mem_replicate.mp hrow).2]
    simp
  · intro a b ha hb
    have hz : (if a < 1 ∨ (a = 1 ∧ b < 0) then bandVal s1 s2 band a b else 0) = 0 := by
      by_cases h : a < 1
      · have : a = 0 := by omega
        subst this
        simp [bandVal_zero_left]
      · rw [if_neg (by omega)]
    rw [hz]
    unfold readCell
    rw [List.getElem?_replicate, if_pos (by omega)]
    simp only
    rw [List.getElem?_replicate, if_pos (by omega)]

theorem findLCS_eq (s1 s2 : Str) (t : Int) (dp0 : Table) :
    ∃ dp, findLCS s1 s2 t dp0 = some (bandVal s1 s2 (bandOf t) s1.length s2.length, dp) ∧
      BandTable s1 s2 (bandOf t) dp := by
  obtain ⟨dp, h1, hf⟩ := outer_loop s1 s2 (bandOf t) s1.length 1
    (List.replicate (s1.length + 1) (List.replicate (s2.length + 1) 0)) (le_refl _) (by omega)
    (filled_init s1 s2 _)
  have hb : BandTable s1 s2 (bandOf t) dp := by
    refine ⟨hf.1, ?_⟩
    intro a b ha hb
    rw [hf.2 a b ha hb, if_pos (by omega)]
  refine ⟨dp, ?_, hb⟩
  unfold findLCS
  simp only [h1, hb.2 _ _ (le_refl _) (le_refl _)]

/-! ### The backtracker -/

theorem take_succ_getElem {l : Str} {i : Nat} (h : i < l.length) :
    l.take (i + 1) = l.take i ++ [l[i]] := by
  rw [List.take_succ, List.getElem?_eq_getElem h]
  rfl

theorem take_sublist_succ (l : Str) (i : Nat) : (l.take i).Sublist (l.take (i + 1)) := by
  rw [List.take_succ]
  exact List.sublist_append_left _ _

theorem backtrack_loop_sublist (s1 s2 : Str) (dp : Table)
    (hd : TableDims dp s1.length s2.length) :
    ∀ (fuel i j : Nat) (acc : Str), i ≤ s1.length → j ≤ s2.length → i + j ≤ fuel →
      ∃ r, backtrackLCS.loop s1 s2 dp (fuel + 1) i j acc = some (acc ++ r) ∧
        r.reverse.Sublist (s1.take i) ∧ r.reverse.Sublist (s2.take j) := by
  intro fuel
  induction fuel with
  | zero =>
    intro i j acc _ _ h
    refine ⟨[], ?_, by simp, by simp⟩
    unfold backtrackLCS.loop
    rw [if_neg (by omega)]
    simp
  | succ n ih =>
    intro i j acc hi hj h
    by_cases hc : 0 < i ∧ 0 < j
    · obtain ⟨i, rfl⟩ : ∃ k, i = k + 1 := ⟨i - 1, by omega⟩
      obtain ⟨j, rfl⟩ : ∃ k, j = k + 1 := ⟨j - 1, by omega⟩
      have hs1 : s1[i]? = some s1[i] := List.getElem?_eq_getElem (by omega)
      have hs2 : s2[j]? = some s2[j] := List.getElem?_eq_getElem (by omega)
      obtain ⟨u, hu⟩ := readCell_of_dims hd (by omega : i ≤ s1.length) hj
      obtain ⟨l, hl⟩ := readCell_of_dims hd hi (by omega : j ≤ s2.length)
      unfold backtrackLCS.loop
      rw [if_pos hc]
      simp only [Nat.add_sub_cancel, hs1, hs2, hu, hl]
      by_cases hab : s1[i] = s2[j]
      · rw [if_pos hab]
        obtain ⟨r, hr, h1, h2⟩ := ih i j (acc ++ [s1[i]]) (by omega) (by omega) (by omega)
        refine ⟨s1[i] :: r, ?_, ?_, ?_⟩
        · rw [hr]; simp
        · rw [take_succ_getElem (by omega : i < s1.length), List.reverse_cons]
          exact List.Sublist.append h1 (List.Sublist.refl _)
        · rw [take_succ_getElem (by omega : j < s2.length), List.reverse_cons, hab]
          exact List.Sublist.append h2 (List.Sublist.refl _)
      · rw [if_neg hab]
        by_cases hul : u > l
        · rw [if_pos hul]
          obtain ⟨r, hr, h1, h2⟩ := ih i (j + 1) acc (by omega) hj (by omega)
          exact ⟨r, hr, h1.trans (take_sublist_succ _ _), h2⟩
        · rw [if_neg hul]
          obtain ⟨r, hr, h1, h2⟩ := ih (i + 1) j acc hi (by omega) (by omega)
          exact ⟨r, hr, h1, h2.trans (take_sublist_succ _ _)⟩
    · refine ⟨[], ?_, by simp, by simp⟩
      unfold backtrackLCS.loop
      rw [if_neg hc]
      simp

theorem backtrackLCS_sublist (s1 s2 : Str) (dp : Table)
    (hd : TableDims dp s1.length s2.length) :
    ∃ lcs, backtrackLCS s1 s2 dp = some lcs ∧ lcs.Sublist s1 ∧ lcs.Sublist s2 := by
  obtain ⟨r, hr, h1, h2⟩ := backtrack_loop_sublist s1 s2 dp hd (s1.length + s2.length)
    s1.length s2.length [] (le_refl _) (le_refl _) (le_refl _)
  refine ⟨r.reverse, ?_, ?_, ?_⟩
  · unfold backtrackLCS
    rw [hr]
    simp
  · simpa using h1
  · simpa using h2

theorem mergeTwoStrings_eq (s1 s2 : Str) (t : Int) :
    ∃ dp lcs, BandTable s1 s2 (bandOf t) dp ∧ backtrackLCS s1 s2 dp = some lcs ∧
      lcs.Sublist s1 ∧ lcs.Sublist s2 ∧ mergeTwoStrings s1 s2 t = some (scsList s1 s2 lcs) := by
  obtain ⟨dp, hf, hb⟩ := findLCS_eq s1 s2 t []
  obtain ⟨lcs, hl, h1, h2⟩ := backtrackLCS_sublist s1 s2 dp hb.1
  refine ⟨dp, lcs, hb, hl, h1, h2, ?_⟩
  unfold mergeTwoStrings
  simp only [hf, hl]
  exact buildSCS_eq s1 s2 lcs

theorem mergeTwoStrings_super (s1 s2 : Str) (t : Int) :
    ∃ r, mergeTwoStrings s1 s2 t = some r ∧ s1.Sublist r ∧ s2.Sublist r := by
  obtain ⟨dp, lcs, _, _, h1, h2, hm⟩ := mergeTwoStrings_eq s1 s2 t
  obtain ⟨ha, hb, _⟩ := scsList_spec lcs s1 s2 h1 h2
  exact ⟨_, hm, ha, hb⟩

theorem chain_loop_super (seqs : List Str) (t : Int) :
    ∀ (n i0 : Nat) (acc : Str), i0 + n = seqs.length →
      (∀ k (hk : k < seqs.length), k < i0 → (seqs[k]).Sublist acc) →
      ∃ r, forRange (fun i result =>
          match seqs[i]? with
          | none => none
          | some s => mergeTwoStrings result s t) i0 n acc = some r ∧
        ∀ k (hk : k < seqs.length), (seqs[k]).Sublist r := by
  intro n
  induction n with
  | zero =>
    intro i0 acc h hacc
    exact ⟨acc, rfl, fun k hk => hacc k hk (by omega)⟩
  | succ n ih =>
    intro i0 acc h hacc
    have hi : i0 < seqs.length := by omega
    obtain ⟨r1, hr1, ha, hb⟩ := mergeTwoStrings_super acc seqs[i0] t
    obtain ⟨r, hr, hall⟩ := ih (i0 + 1) r1 (by omega) (by
      intro k hk hlt
      by_cases hk0 : k = i0
      · subst hk0; exact hb
      · exact (hacc k hk (by omega)).trans ha)
    refine ⟨r, ?_, hall⟩
    unfold forRange
    simp only [List.getElem?_eq_getElem hi, hr1]
    exact hr

/-! ### The unbanded recurrence computes the LCS length -/

theorem sublist_concat_cases {c A : Str} {x : Char} (h : c.Sublist (A ++ [x])) :
    c.Sublist A ∨ ∃ c1, c = c1 ++ [x] ∧ c1.Sublist A := by
  obtain ⟨l1, l2, rfl, h1, h2⟩ := List.sublist_append_iff.mp h
  cases h2 with
  | cons _ h3 =>
    have : l2 = [] := List.sublist_nil.mp h3
    subst this
    left
    simpa using h1
  | cons₂ _ h3 =>
    rename_i l3
    have : l3 = [] := List.sublist_nil.mp h3
    subst this
    right
    exact ⟨l1, rfl, h1⟩

theorem isLCSLength_nil_left (b : Str) : IsLCSLength [] b 0 := by
  refine ⟨⟨[], List.Sublist.refl _, List.nil_sublist _, rfl⟩, ?_⟩
  intro c h _
  rw [List.sublist_nil.mp h]
  exact le_refl _

theorem isLCSLength_nil_right (a : Str) : IsLCSLength a [] 0 := by
  refine ⟨⟨[], List.nil_sublist _, List.Sublist.refl _, rfl⟩, ?_⟩
  intro c _ h
  rw [List.sublist_nil.mp h]
  exact le_refl _

theorem isLCSLength_concat_eq {A B : Str} {x : Char} {n : Nat} (h : IsLCSLength A B n) :
    IsLCSLength (A ++ [x]) (B ++ [x]) (n + 1) := by
  obtain ⟨⟨c, h1, h2, hn⟩, hmax⟩ := h
  refine ⟨⟨c ++ [x], List.Sublist.append h1 (List.Sublist.refl _),
    List.Sublist.append h2 (List.Sublist.refl _), by simp [hn]⟩, ?_⟩
  intro d hd1 hd2
  rcases sublist_concat_cases hd1 with ha | ⟨d1, rfl, ha⟩
  · rcases sublist_concat_cases hd2 with hb | ⟨d2, rfl, _⟩
    · exact (hmax d ha hb).trans (Nat.le_succ _)
    · have hb : d2.Sublist B := by assumption
      have := hmax d2 ((List.sublist_append_left d2 [x]).trans ha) hb
      simp only [List.length_append, List.length_singleton]
      omega
  · rcases sublist_concat_cases hd2 with hb | ⟨d2, he, hb⟩
    · have := hmax d1 ha ((List.sublist_append_left d1 [x]).trans hb)
      simp only [List.length_append, List.length_singleton]
      omega
    · have e : d1 = d2 := List.append_cancel_right he
      subst e
      have := hmax d1 ha hb
      simp only [List.length_append, List.length_singleton]
      omega

theorem isLCSLength_concat_ne {A B : Str} {x y : Char} {n m : Nat} (hxy : x ≠ y)
    (h1 : IsLCSLength A (B ++ [y]) n) (h2 : IsLCSLength (A ++ [x]) B m) :
    IsLCSLength (A ++ [x]) (B ++ [y]) (max n m) := by
  refine ⟨?_, ?_⟩
  · rcases le_total n m with hnm | hnm
    · obtain ⟨c, ha, hb, hl⟩ := h2.1
      exact ⟨c, ha, hb.trans (List.sublist_append_left _ _), by rw [hl, max_eq_right hnm]⟩
    · obtain ⟨c, ha, hb, hl⟩ := h1.1
      exact ⟨c, ha.trans (List.sublist_append_left _ _), hb, by rw [hl, max_eq_left hnm]⟩
  · intro d hd1 hd2
    rcases sublist_concat_cases hd1 with ha | ⟨d1, rfl, ha⟩
    · exact (h1.2 d ha hd2).trans (le_max_left _ _)
    · rcases sublist_concat_cases hd2 with hb | ⟨d2, he, _⟩
      · exact (h2.2 _ hd1 hb).trans (le_max_right _ _)
      · exfalso
        have := congrArg List.getLast? he
        simp at this
        exact hxy this

theorem lcsVal_isLCSLength (s1 s2 : Str) :
    ∀ (i j : Nat), i ≤ s1.length → j ≤ s2.length →
      IsLCSLength (s1.take i) (s2.take j) (lcsVal s1 s2 i j) := by
  intro i
  induction i with
  | zero =>
    intro j _ _
    rw [lcsVal_zero_left, List.take_zero]
    exact isLCSLength_nil_left _
  | succ i ihi =>
    intro j
    induction j with
    | zero =>
      intro _ _
      rw [lcsVal_zero_right, List.take_zero]
      exact isLCSLength_nil_right _
    | succ j ihj =>
      intro hi hj
      have hs1 : s1[i]? = some s1[i] := List.getElem?_eq_getElem (by omega)
      have hs2 : s2[j]? = some s2[j] := List.getElem?_eq_getElem (by omega)
      rw [lcsVal_succ, hs1, hs2, take_succ_getElem (by omega : i < s1.length),
        take_succ_getElem (by omega : j < s2.length)]
      by_cases hab : s1[i] = s2[j]
      · rw [if_pos (by rw [hab]), hab]
        exact isLCSLength_concat_eq (ihi j (by omega) (by omega))
      · rw [if_neg (by simpa using hab)]
        have a1 := ihi (j + 1) (by omega) hj
        have a2 := ihj hi (by omega)
        rw [take_succ_getElem (by omega : j < s2.length)] at a1
        rw [take_succ_getElem (by omega : i < s1.length)] at a2
        exact isLCSLength_concat_ne hab a1 a2

theorem bandVal_le_lcsVal (s1 s2 : Str) (band : Int) :
    ∀ (i j : Nat), 0 ≤ bandVal s1 s2 band i j ∧
      bandVal s1 s2 band i j ≤ (lcsVal s1 s2 i j : Int) := by
  intro i
  induction i with
  | zero => intro j; rw [lcsVal_zero_left, bandVal_zero_left]; simp
  | succ i ihi =>
    intro j
    induction j with
    | zero => rw [lcsVal_zero_right, bandVal_zero_right]; simp
    | succ j ihj =>
      rw [lcsVal_succ, bandVal_succ]
      have a0 := ihi j
      have a1 := ihi (j + 1)
      by_cases hb : inBand band s2.length (i + 1) (j + 1)
      · rw [if_pos hb]
        by_cases hc : s1[i]? = s2[j]?
        · rw [if_pos hc, if_pos hc]
          push_cast
          omega
        · rw [if_neg hc, if_neg hc]
          push_cast
          omega
      · rw [if_neg hb]
        exact ⟨le_refl _, Int.natCast_nonneg _⟩

theorem isLCSLength_full (s1 s2 : Str) :
    IsLCSLength s1 s2 (lcsVal s1 s2 s1.length s2.length) := by
  have := lcsVal_isLCSLength s1 s2 s1.length s2.length (le_refl _) (le_refl _)
  rwa [List.take_length, List.take_length] at this

section NextPermutation

variable {α : Type} [LinearOrder α]

theorem lex_cons_lt_cons {a b : α} {l m : List α} :
    a :: l < b :: m ↔ a < b ∨ (a = b ∧ l < m) := by
  constructor
  · intro h
    cases h with
    | cons h1 => exact Or.inr ⟨rfl, h1⟩
    | rel h1 => exact Or.inl h1
  · rintro (h | ⟨rfl, h⟩)
    · exact List.Lex.rel h
    · exact List.Lex.cons h

theorem lex_not_lt_nil (l : List α) : ¬ l < [] := by
  intro h
  cases h

theorem lex_cons_le_cons {a : α} {l m : List α} (h : l ≤ m) : a :: l ≤ a :: m := by
  rcases lt_or_eq_of_le h with h1 | h1
  · exact le_of_lt (lex_cons_lt_cons.mpr (Or.inr ⟨rfl, h1⟩))
  · rw [h1]

theorem lex_append_lt_append (pre : List α) {l m : List α} (h : l < m) : pre ++ l < pre ++ m := by
  induction pre with
  | nil => exact h
  | cons a pre ih => exact lex_cons_lt_cons.mpr (Or.inr ⟨rfl, ih⟩)

theorem lex_between_append (pre : List α) :
    ∀ {A B q : List α}, pre ++ A < q → q < pre ++ B → ∃ C, q = pre ++ C ∧ A < C ∧ C < B := by
  induction pre with
  | nil =>
    intro A B q h1 h2
    exact ⟨q, rfl, h1, h2⟩
  | cons a pre ih =>
    intro A B q h1 h2
    cases q with
    | nil => exact absurd h1 (lex_not_lt_nil _)
    | cons b q =>
      rw [List.cons_append] at h1 h2
      rcases lex_cons_lt_cons.mp h1 with h3 | ⟨h3, h4⟩
      · rcases lex_cons_lt_cons.mp h2 with h5 | ⟨h5, _⟩
        · exact absurd h3 (not_lt_of_gt h5)
        · rw [h5] at h3
          exact absurd h3 (lt_irrefl _)
      · rcases lex_cons_lt_cons.mp h2 with h5 | ⟨_, h6⟩
        · rw [h3] at h5
          exact absurd h5 (lt_irrefl _)
        · obtain ⟨C, hq, hA, hB⟩ := ih h4 h6
          exact ⟨C, by rw [hq, h3, List.cons_append], hA, hB⟩

theorem sorted_le_perm :
    ∀ (l : List α), List.Sorted (fun a b => a ≤ b) l → ∀ q : List α, q.Perm l → l ≤ q := by
  intro l
  induction l with
  | nil =>
    intro _ q hq
    rw [List.perm_nil.mp hq]
  | cons a l ih =>
    intro hs q hq
    cases q with
    | nil => exact absurd (List.nil_perm.mp hq) (List.cons_ne_nil _ _)
    | cons b q =>
      have hb : b ∈ a :: l := hq.mem_iff.mp (List.mem_cons_self _ _)
      have hab : a ≤ b := by
        rcases List.mem_cons.mp hb with h | h
        · rw [h]
        · exact List.rel_of_sorted_cons hs b h
      rcases lt_or_eq_of_le hab with h | h
      · exact le_of_lt (lex_cons_lt_cons.mpr (Or.inl h))
      · subst h
        exact lex_cons_le_cons (ih hs.of_cons q (List.Perm.cons_inv hq))

theorem sorted_ge_perm :
    ∀ (l : List α), List.Sorted (fun a b => b ≤ a) l → ∀ q : List α, q.Perm l → q ≤ l := by
  intro l
  induction l with
  | nil =>
    intro _ q hq
    rw [List.perm_nil.mp hq]
  | cons a l ih =>
    intro hs q hq
    cases q with
    | nil => exact absurd (List.nil_perm.mp hq) (List.cons_ne_nil _ _)
    | cons b q =>
      have hb : b ∈ a :: l := hq.mem_iff.mp (List.mem_cons_self _ _)
      have hab : b ≤ a := by
        rcases List.mem_cons.mp hb with h | h
        · rw [h]
        · exact List.rel_of_sorted_cons hs b h
      rcases lt_or_eq_of_le hab with h | h
      · exact le_of_lt (lex_cons_lt_cons.mpr (Or.inl h))
      · subst h
        exact lex_cons_le_cons (ih hs.of_cons q (List.Perm.cons_inv hq))

theorem findPivot_some :
    ∀ (rev suf : List α) (rest : List α) (x : α) (suf1 : List α),
      List.Sorted (fun a b => b ≤ a) suf →
      nextPermutation.findPivot rev suf = some (rest, x, suf1) →
      rev.reverse ++ suf = rest.reverse ++ x :: suf1 ∧
        List.Sorted (fun a b => b ≤ a) suf1 ∧ ∃ y ∈ suf1, x < y := by
  intro rev
  induction rev with
  | nil =>
    intro suf rest x suf1 _ h
    simp [nextPermutation.findPivot] at h
  | cons a rev ih =>
    intro suf rest x suf1 hs h
    cases suf with
    | nil =>
      rw [nextPermutation.findPivot] at h
      obtain ⟨e, h2, h3⟩ := ih [a] rest x suf1 (List.sorted_singleton a) h
      exact ⟨by rw [List.reverse_cons, List.append_assoc]; exact e, h2, h3⟩
    | cons y suf =>
      rw [nextPermutation.findPivot] at h
      by_cases hay : a < y
      · rw [if_pos hay] at h
        simp only [Option.some.injEq, Prod.mk.injEq] at h
        obtain ⟨rfl, rfl, rfl⟩ := h
        exact ⟨by simp, hs, y, List.mem_cons_self _ _, hay⟩
      · rw [if_neg hay] at h
        have hs1 : List.Sorted (fun a b => b ≤ a) (a :: y :: suf) := by
          refine List.sorted_cons.mpr ⟨?_, hs⟩
          intro b hb
          rcases List.mem_cons.mp hb with h1 | h1
          · rw [h1]; exact not_lt.mp hay
          · exact (List.rel_of_sorted_cons hs b h1).trans (not_lt.mp hay)
        obtain ⟨e, h2, h3⟩ := ih (a :: y :: suf) rest x suf1 hs1 h
        exact ⟨by rw [List.reverse_cons, List.append_assoc]; exact e, h2, h3⟩

theorem findPivot_none :
    ∀ (rev suf : List α), List.Sorted (fun a b => b ≤ a) suf →
      nextPermutation.findPivot rev suf = none →
      List.Sorted (fun a b => b ≤ a) (rev.reverse ++ suf) := by
  intro rev
  induction rev with
  | nil =>
    intro suf hs _
    simpa using hs
  | cons a rev ih =>
    intro suf hs h
    cases suf with
    | nil =>
      rw [nextPermutation.findPivot] at h
      have := ih [a] (List.sorted_singleton a) h
      rw [List.reverse_cons, List.append_assoc]
      simpa using this
    | cons y suf =>
      rw [nextPermutation.findPivot] at h
      by_cases hay : a < y
      · rw [if_pos hay] at h
        simp at h
      · rw [if_neg hay] at h
        have hs1 : List.Sorted (fun a b => b ≤ a) (a :: y :: suf) := by
          refine List.sorted_cons.mpr ⟨?_, hs⟩
          intro b hb
          rcases List.mem_cons.mp hb with h1 | h1
          · rw [h1]; exact not_lt.mp hay
          · exact (List.rel_of_sorted_cons hs b h1).trans (not_lt.mp hay)
        have := ih (a :: y :: suf) hs1 h
        rw [List.reverse_cons, List.append_assoc]
        exact this

theorem swapPivot_spec (x : α) :
    ∀ (asc : List α), List.Sorted (fun a b => a ≤ b) asc → (∃ y ∈ asc, x < y) →
      x < (nextPermutation.swapPivot x asc).1 ∧
        (∀ z ∈ asc, x < z → (nextPermutation.swapPivot x asc).1 ≤ z) ∧
        ((nextPermutation.swapPivot x asc).1 :: (nextPermutation.swapPivot x asc).2).Perm
          (x :: asc) ∧
        List.Sorted (fun a b => a ≤ b) (nextPermutation.swapPivot x asc).2 := by
  intro asc
  induction asc with
  | nil =>
    rintro _ ⟨y, hy, _⟩
    cases hy
  | cons y ys ih =>
    intro hs hex
    by_cases hxy : x < y
    · simp only [nextPermutation.swapPivot, if_pos hxy]
      refine ⟨hxy, ?_, List.Perm.swap _ _ _, ?_⟩
      · intro z hz _
        rcases List.mem_cons.mp hz with h | h
        · rw [h]
        · exact List.rel_of_sorted_cons hs z h
      · refine List.sorted_cons.mpr ⟨?_, hs.of_cons⟩
        intro b hb
        exact (le_of_lt hxy).trans (List.rel_of_sorted_cons hs b hb)
    · simp only [nextPermutation.swapPivot, if_neg hxy]
      have hex1 : ∃ z ∈ ys, x < z := by
        obtain ⟨z, hz, hxz⟩ := hex
        rcases List.mem_cons.mp hz with h | h
        · rw [h] at hxz; exact absurd hxz hxy
        · exact ⟨z, h, hxz⟩
      obtain ⟨h1, h2, h3, h4⟩ := ih hs.of_cons hex1
      refine ⟨h1, ?_, ?_, ?_⟩
      · intro z hz hxz
        rcases List.mem_cons.mp hz with h | h
        · rw [h] at hxz; exact absurd hxz hxy
        · exact h2 z h hxz
      · exact (List.Perm.swap _ _ _).trans (((List.Perm.cons y h3)).trans (List.Perm.swap _ _ _))
      · refine List.sorted_cons.mpr ⟨?_, h4⟩
        intro b hb
        have hb1 : b ∈ x :: ys := h3.mem_iff.mp (List.mem_cons_of_mem _ hb)
        rcases List.mem_cons.mp hb1 with h | h
        · rw [h]; exact not_lt.mp hxy
        · exact List.rel_of_sorted_cons hs b h

theorem nextPermutation_true {l l1 : List α} (h : nextPermutation l = (l1, true)) :
    l1.Perm l ∧ l < l1 ∧ ∀ q : List α, q.Perm l → l < q → l1 ≤ q := by
  unfold nextPermutation at h
  split at h
  · simp at h
  · rename_i revPre x suf hp
    obtain ⟨e, hsuf, hex⟩ := findPivot_some l.reverse [] revPre x suf List.sorted_nil hp
    simp only [List.reverse_reverse, List.append_nil] at e
    have hasc : List.Sorted (fun a b => a ≤ b) suf.reverse := by
      unfold List.Sorted
      rw [List.pairwise_reverse]
      exact hsuf
    have hex1 : ∃ y ∈ suf.reverse, x < y := by
      obtain ⟨y, hy, hxy⟩ := hex
      exact ⟨y, List.mem_reverse.mpr hy, hxy⟩
    obtain ⟨s1, s2, s3, s4⟩ := swapPivot_spec x suf.reverse hasc hex1
    simp only [Prod.mk.injEq, and_true] at h
    have s3a : ((nextPermutation.swapPivot x suf.reverse).1 ::
        (nextPermutation.swapPivot x suf.reverse).2).Perm (x :: suf) :=
      s3.trans (List.Perm.cons x (List.reverse_perm suf))
    rw [← h, e]
    refine ⟨(List.perm_append_left_iff _).mpr s3a, ?_, ?_⟩
    · exact lex_append_lt_append _ (lex_cons_lt_cons.mpr (Or.inl s1))
    · intro q hq hlt
      by_contra hcon
      have hql := not_le.mp hcon
      obtain ⟨C, rfl, hA, hB⟩ := lex_between_append revPre.reverse hlt hql
      have hC : C.Perm (x :: suf) := (List.perm_append_left_iff _).mp hq
      cases C with
      | nil => exact absurd hA (lex_not_lt_nil _)
      | cons c C =>
        have hc : c ∈ x :: suf := hC.mem_iff.mp (List.mem_cons_self _ _)
        rcases lex_cons_lt_cons.mp hA with hxc | ⟨hxc, hlt1⟩
        · have hcs : c ∈ suf := by
            rcases List.mem_cons.mp hc with h1 | h1
            · rw [h1] at hxc; exact absurd hxc (lt_irrefl _)
            · exact h1
          have hpc := s2 c (List.mem_reverse.mpr hcs) hxc
          rcases lex_cons_lt_cons.mp hB with h1 | ⟨h1, h2⟩
          · exact absurd h1 (not_lt.mpr hpc)
          · subst h1
            have hCr : C.Perm (nextPermutation.swapPivot x suf.reverse).2 :=
              List.Perm.cons_inv (hC.trans s3a.symm)
            exact absurd h2 (not_lt.mpr (sorted_le_perm _ s4 C hCr))
        · subst hxc
          have hCs : C.Perm suf := List.Perm.cons_inv hC
          exact absurd hlt1 (not_lt.mpr (sorted_ge_perm _ hsuf C hCs))

theorem nextPermutation_false {l l1 : List α} (h : nextPermutation l = (l1, false)) :
    ∀ q : List α, q.Perm l → q ≤ l := by
  unfold nextPermutation at h
  split at h
  · rename_i hp
    have := findPivot_none l.reverse [] List.sorted_nil hp
    simp only [List.reverse_reverse, List.append_nil] at this
    exact sorted_ge_perm l this
  · simp at h

end NextPermutation

/-! ### Chain merge is total -/

theorem mergeAllSeq_super (seqs : List Str) (t : Int) (hne : seqs ≠ []) :
    ∃ r, mergeAllSeq seqs t = some r ∧ ∀ s ∈ seqs, s.Sublist r := by
  have hpos : 0 < seqs.length := List.length_pos.mpr hne
  obtain ⟨r, hr, hall⟩ := chain_loop_super seqs t (seqs.length - 1) 1 seqs[0] (by omega) (by
    intro k hk hlt
    have : k = 0 := by omega
    subst this
    exact List.Sublist.refl _)
  refine ⟨r, ?_, ?_⟩
  · unfold mergeAllSeq
    have he : seqs.isEmpty = false := by
      cases seqs with
      | nil => exact absurd rfl hne
      | cons _ _ => rfl
    simp only [he, List.getElem?_eq_getElem hpos]
    exact hr
  · intro s hs
    obtain ⟨k, hk, rfl⟩ := List.getElem_of_mem hs
    exact hall k hk

theorem mergeAllSeq_eq_chain (seqs : List Str) (t : Int) :
    mergeAllSeq seqs t = some (chain t seqs) := by
  unfold chain
  by_cases hne : seqs = []
  · subst hne
    rfl
  · obtain ⟨r, hr, _⟩ := mergeAllSeq_super seqs t hne
    rw [hr]
    rfl

theorem chain_super (seqs : List Str) (t : Int) (hne : seqs ≠ []) :
    ∀ s ∈ seqs, s.Sublist (chain t seqs) := by
  obtain ⟨r, hr, h⟩ := mergeAllSeq_super seqs t hne
  have := mergeAllSeq_eq_chain seqs t
  rw [hr] at this
  simp only [Option.some.injEq] at this
  rw [← this]
  exact h

theorem mergeTwoStrings_nil (t : Int) : mergeTwoStrings [] [] t = some [] := by
  obtain ⟨_, lcs, _, _, h1, _, hm⟩ := mergeTwoStrings_eq [] [] t
  rw [hm, List.sublist_nil.mp h1]
  rfl

theorem chain_loop_nil (seqs : List Str) (t : Int) (hall : ∀ s ∈ seqs, s = []) :
    ∀ (n i0 : Nat), i0 + n = seqs.length →
      forRange (fun i result =>
          match seqs[i]? with
          | none => none
          | some s => mergeTwoStrings result s t) i0 n [] = some [] := by
  intro n
  induction n with
  | zero => intro i0 _; rfl
  | succ n ih =>
    intro i0 h
    have hi : i0 < seqs.length := by omega
    have he : seqs[i0] = [] := hall _ (List.getElem_mem hi)
    unfold forRange
    simp only [List.getElem?_eq_getElem hi, he, mergeTwoStrings_nil]
    exact ih (i0 + 1) (by omega)

theorem chain_of_all_nil (seqs : List Str) (t : Int) (hall : ∀ s ∈ seqs, s = []) :
    chain t seqs = [] := by
  have h := mergeAllSeq_eq_chain seqs t
  cases seqs with
  | nil =>
    unfold chain
    rfl
  | cons a rest =>
    have ha : a = [] := hall a (List.mem_cons_self _ _)
    have := chain_loop_nil (a :: rest) t hall ((a :: rest).length - 1) 1 (by simp; omega)
    unfold mergeAllSeq at h
    simp only [List.isEmpty_cons, Bool.false_eq_true, ↓reduceIte, List.getElem?_cons_zero,
      ha] at h
    rw [ha] at this
    rw [this] at h
    simp only [Option.some.injEq] at h
    rw [ha]
    exact h.symm

theorem chain_nil_of_perm {seqs p q : List Str} (t : Int) (hp : p.Perm seqs) (hq : q.Perm seqs)
    (h : chain t p = []) : chain t q = [] := by
  apply chain_of_all_nil
  intro s hs
  have hsp : s ∈ p := (hq.trans hp.symm).mem_iff.mp hs
  have hne : p ≠ [] := List.ne_nil_of_mem hsp
  have := chain_super p t hne s hsp
  rw [h] at this
  exact List.sublist_nil.mp this

/-! ### The search loop -/

theorem searchBody_eq (t : Int) (curr : List Str) (best : Str) :
    searchBody t curr best = some (keepBest best (chain t curr)) := by
  unfold searchBody keepBest
  rw [mergeAllSeq_eq_chain]
  simp only
  split <;> rfl

theorem countP_lt_countP {β : Type} (p q : β → Bool) :
    ∀ (L : List β), (∀ x ∈ L, p x = true → q x = true) →
      (∃ x ∈ L, q x = true ∧ p x = false) → L.countP p < L.countP q := by
  intro L
  induction L with
  | nil =>
    rintro _ ⟨x, hx, _⟩
    cases hx
  | cons a L ih =>
    intro hmono hex
    have hle : L.countP p ≤ L.countP q :=
      List.countP_mono_left (fun x hx => hmono x (List.mem_cons_of_mem _ hx))
    rw [List.countP_cons, List.countP_cons]
    by_cases hpa : p a = true
    · have hqa : q a = true := hmono a (List.mem_cons_self _ _) hpa
      have hex1 : ∃ x ∈ L, q x = true ∧ p x = false := by
        obtain ⟨x, hx, hqx, hpx⟩ := hex
        rcases List.mem_cons.mp hx with h | h
        · rw [h, hpa] at hpx; cases hpx
        · exact ⟨x, h, hqx, hpx⟩
      have := ih (fun x hx => hmono x (List.mem_cons_of_mem _ hx)) hex1
      simp only [hpa, hqa, ↓reduceIte]
      omega
    · simp only [hpa, Bool.false_eq_true, ↓reduceIte, Nat.add_zero]
      by_cases hqa : q a = true
      · simp only [hqa, ↓reduceIte]
        omega
      · have hex1 : ∃ x ∈ L, q x = true ∧ p x = false := by
          obtain ⟨x, hx, hqx, hpx⟩ := hex
          rcases List.mem_cons.mp hx with h | h
          · rw [h] at hqx; exact absurd hqx hqa
          · exact ⟨x, h, hqx, hpx⟩
        have := ih (fun x hx => hmono x (List.mem_cons_of_mem _ hx)) hex1
        simp only [hqa, Bool.false_eq_true, ↓reduceIte, Nat.add_zero]
        exact this

theorem remaining_pos {seqs curr : List Str} (hc : curr.Perm seqs) : 0 < remaining seqs curr := by
  unfold remaining
  rw [List.countP_pos_iff]
  exact ⟨curr, List.mem_permutations.mpr hc, by simp⟩

theorem remaining_lt {seqs curr next : List Str} (hc : curr.Perm seqs) (hlt : curr < next) :
    remaining seqs next < remaining seqs curr := by
  unfold remaining
  apply countP_lt_countP
  · intro x _ hx
    simp only [decide_eq_true_eq] at hx ⊢
    exact (le_of_lt hlt).trans hx
  · refine ⟨curr, List.mem_permutations.mpr hc, by simp, ?_⟩
    simp only [decide_eq_false_iff_not, not_le]
    exact hlt

theorem remaining_le_factorial (seqs curr : List Str) :
    remaining seqs curr ≤ seqs.length.factorial := by
  unfold remaining
  rw [← List.length_permutations]
  exact List.countP_le_length _

theorem passed_of_pending {seqs : List Str} {t : Int} {curr : List Str} {best : Str}
    (hc : curr.Perm seqs) (h : Pending seqs t curr best) :
    ∃ p, Passed seqs t curr (keepBest best (chain t curr)) p := by
  rcases h with ⟨rfl, hmin⟩ | ⟨p, hp, hpc, hpb, hmin, hfirst⟩
  · have hk : keepBest [] (chain t curr) = chain t curr := rfl
    rw [hk]
    have heq : ∀ q : List Str, q.Perm seqs → q ≤ curr → q = curr :=
      fun q hq hle => le_antisymm hle (hmin q hq)
    refine ⟨curr, hc, le_refl _, rfl, ?_, ?_⟩
    · intro q hq hle
      rw [heq q hq hle]
    · intro q hq hle _
      rw [heq q hq hle]
  · by_cases hbe : best = []
    · have hcur : chain t curr = [] := chain_nil_of_perm t hp hc (hpb.trans hbe)
      have hk : keepBest best (chain t curr) = best := by
        rw [hbe, hcur]
        rfl
      rw [hk]
      refine ⟨p, hp, le_of_lt hpc, hpb, ?_, ?_⟩
      · intro q _ _
        rw [hbe]
        exact Nat.zero_le _
      · intro q hq hle _
        rcases lt_or_eq_of_le hle with h1 | h1
        · refine hfirst q hq h1 ?_
          rw [chain_nil_of_perm t hp hq (hpb.trans hbe), hbe]
        · rw [h1]
          exact le_of_lt hpc
    · have hne : best.isEmpty = false := by
        cases best with
        | nil => exact absurd rfl hbe
        | cons _ _ => rfl
      by_cases hlt : (chain t curr).length < best.length
      · have hk : keepBest best (chain t curr) = chain t curr := by
          unfold keepBest
          simp [hne, hlt]
        rw [hk]
        refine ⟨curr, hc, le_refl _, rfl, ?_, ?_⟩
        · intro q hq hle
          rcases lt_or_eq_of_le hle with h1 | h1
          · exact (le_of_lt hlt).trans (hmin q hq h1)
          · rw [h1]
        · intro q hq hle hlen
          rcases lt_or_eq_of_le hle with h1 | h1
          · have := hmin q hq h1
            omega
          · rw [h1]
      · have hk : keepBest best (chain t curr) = best := by
          unfold keepBest
          simp [hne, hlt]
        rw [hk]
        refine ⟨p, hp, le_of_lt hpc, hpb, ?_, ?_⟩
        · intro q hq hle
          rcases lt_or_eq_of_le hle with h1 | h1
          · exact hmin q hq h1
          · rw [h1]
            exact not_lt.mp hlt
        · intro q hq hle hlen
          rcases lt_or_eq_of_le hle with h1 | h1
          · exact hfirst q hq h1 hlen
          · rw [h1]
            exact le_of_lt hpc

theorem pending_of_passed {seqs : List Str} {t : Int} {curr next : List Str} {best : Str}
    {p : List Str} (hc : curr.Perm seqs) (h : Passed seqs t curr best p)
    (hn : nextPermutation curr = (next, true)) : Pending seqs t next best := by
  obtain ⟨_, hlt, hsucc⟩ := nextPermutation_true hn
  obtain ⟨hp, hpc, hpb, hmin, hfirst⟩ := h
  have hle : ∀ q : List Str, q.Perm seqs → q < next → q ≤ curr := by
    intro q hq hqn
    by_contra hcon
    exact absurd hqn (not_lt.mpr (hsucc q (hq.trans hc.symm) (not_le.mp hcon)))
  exact Or.inr ⟨p, hp, lt_of_le_of_lt hpc hlt, hpb,
    fun q hq hqn => hmin q hq (hle q hq hqn),
    fun q hq hqn hlen => hfirst q hq (hle q hq hqn) hlen⟩

theorem searchLoop_spec (seqs : List Str) (t : Int) :
    ∀ (fuel : Nat) (curr : List Str) (best : Str), curr.Perm seqs → Pending seqs t curr best →
      remaining seqs curr ≤ fuel →
      ∃ b p, searchLoop t fuel curr best = some b ∧ p.Perm seqs ∧ chain t p = b ∧
        (∀ q : List Str, q.Perm seqs → b.length ≤ (chain t q).length) ∧
        (∀ q : List Str, q.Perm seqs → (chain t q).length = b.length → p ≤ q) := by
  intro fuel
  induction fuel with
  | zero =>
    intro curr best hc _ hr
    have := remaining_pos hc
    omega
  | succ n ih =>
    intro curr best hc hpre hr
    obtain ⟨p, hpass⟩ := passed_of_pending hc hpre
    unfold searchLoop
    rw [searchBody_eq]
    simp only
    rcases hnp : nextPermutation curr with ⟨next, flag⟩
    cases flag with
    | true =>
      simp only
      obtain ⟨hperm, hlt, _⟩ := nextPermutation_true hnp
      have := remaining_lt hc hlt
      exact ih next _ (hperm.trans hc) (pending_of_passed hc hpass hnp) (by omega)
    | false =>
      simp only
      have hmax := nextPermutation_false hnp
      obtain ⟨hp, _, hpb, hmin, hfirst⟩ := hpass
      exact ⟨_, p, rfl, hp, hpb, fun q hq => hmin q hq (hmax q (hq.trans hc.symm)),
        fun q hq hlen => hfirst q hq (hmax q (hq.trans hc.symm)) hlen⟩

theorem sortSeqs_perm (seqs : List Str) : (sortSeqs seqs).Perm seqs :=
  List.perm_insertionSort _ seqs

theorem sortSeqs_min (seqs q : List Str) (hq : q.Perm seqs) : sortSeqs seqs ≤ q :=
  sorted_le_perm _ (List.sorted_insertionSort _ seqs) q (hq.trans (sortSeqs_perm seqs).symm)

theorem orderSearch_spec (seqs : List Str) (t : Int) :
    ∃ b p, orderSearch seqs t = some b ∧ p.Perm seqs ∧ chain t p = b ∧
      (∀ q : List Str, q.Perm seqs → b.length ≤ (chain t q).length) ∧
      (∀ q : List Str, q.Perm seqs → (chain t q).length = b.length → p ≤ q) :=
  searchLoop_spec seqs t _ _ [] (sortSeqs_perm seqs) (Or.inl ⟨rfl, sortSeqs_min seqs⟩)
    (remaining_le_factorial _ _)

/-! ### The tracked best length never grows -/

theorem keepBest_length_le {seqs : List Str} {t : Int} {curr : List Str} {best : Str}
    (hc : curr.Perm seqs)
    (hj : best ≠ [] ∨ ∀ q : List Str, q.Perm seqs → chain t q = []) :
    (keepBest best (chain t curr)).length ≤ best.length ∧
      (keepBest best (chain t curr) ≠ [] ∨ ∀ q : List Str, q.Perm seqs → chain t q = []) := by
  by_cases hall : ∀ q : List Str, q.Perm seqs → chain t q = []
  · refine ⟨?_, Or.inr hall⟩
    have hk : keepBest best (chain t curr) = best ∨ keepBest best (chain t curr) = chain t curr := by
      unfold keepBest
      split
      · exact Or.inr rfl
      · exact Or.inl rfl
    rcases hk with h | h
    · rw [h]
    · rw [h, hall curr hc]
      exact Nat.zero_le _
  · have hbe : best ≠ [] := by
      rcases hj with h | h
      · exact h
      · exact absurd h hall
    have hne : best.isEmpty = false := by
      cases best with
      | nil => exact absurd rfl hbe
      | cons _ _ => rfl
    have hcur : chain t curr ≠ [] := by
      intro h0
      exact hall (fun q hq => chain_nil_of_perm t hc hq h0)
    by_cases hlt : (chain t curr).length < best.length
    · have hk : keepBest best (chain t curr) = chain t curr := by
        unfold keepBest
        simp [hne, hlt]
      rw [hk]
      exact ⟨le_of_lt hlt, Or.inl hcur⟩
    · have hk : keepBest best (chain t curr) = best := by
        unfold keepBest
        simp [hne, hlt]
      rw [hk]
      exact ⟨le_refl _, Or.inl hbe⟩

theorem searchPasses_succ_le (seqs : List Str) (t : Int) :
    ∀ (n : Nat) (curr : List Str) (best : Str), curr.Perm seqs →
      (best ≠ [] ∨ ∀ q : List Str, q.Perm seqs → chain t q = []) →
      ∃ b b1, searchPasses t n curr best = some b ∧ searchPasses t (n + 1) curr best = some b1 ∧
        b1.length ≤ b.length := by
  intro n
  induction n with
  | zero =>
    intro curr best hc hj
    refine ⟨best, keepBest best (chain t curr), rfl, ?_, (keepBest_length_le hc hj).1⟩
    unfold searchPasses
    rw [searchBody_eq]
    simp only
    rcases nextPermutation curr with ⟨next, flag⟩
    cases flag <;> rfl
  | succ n ih =>
    intro curr best hc hj
    have hj1 := (keepBest_length_le hc hj).2
    rcases hnp : nextPermutation curr with ⟨next, flag⟩
    cases flag with
    | true =>
      obtain ⟨hperm, _, _⟩ := nextPermutation_true hnp
      obtain ⟨b, b1, e1, e2, hle⟩ := ih next (keepBest best (chain t curr)) (hperm.trans hc) hj1
      refine ⟨b, b1, ?_, ?_, hle⟩
      · rw [searchPasses, searchBody_eq]
        simp only [hnp]
        exact e1
      · rw [searchPasses, searchBody_eq]
        simp only [hnp]
        exact e2
    | false =>
      refine ⟨keepBest best (chain t curr), keepBest best (chain t curr), ?_, ?_, le_refl _⟩
      · rw [searchPasses, searchBody_eq]
        simp only [hnp]
      · rw [searchPasses, searchBody_eq]
        simp only [hnp]

theorem searchPasses_of_searchLoop (t : Int) :
    ∀ (fuel : Nat) (curr : List Str) (best b : Str), searchLoop t fuel curr best = some b →
      ∀ k, searchPasses t (fuel + k) curr best = some b := by
  intro fuel
  induction fuel with
  | zero =>
    intro curr best b h
    simp [searchLoop] at h
  | succ n ih =>
    intro curr best b h k
    have e : n + 1 + k = (n + k) + 1 := by omega
    rw [e, searchPasses, searchBody_eq]
    rw [searchLoop, searchBody_eq] at h
    simp only at h ⊢
    rcases hnp : nextPermutation curr with ⟨next, flag⟩
    rw [hnp] at h
    cases flag with
    | true =>
      simp only at h ⊢
      exact ih next _ b h k
    | false =>
      simp only at h ⊢
      exact h

theorem bestAfter_of_orderSearch (seqs : List Str) (t : Int) (b : Str)
    (h : orderSearch seqs t = some b) (n : Nat) (hn : seqs.length.factorial ≤ n) :
    bestAfter seqs t n = some b := by
  have := searchPasses_of_searchLoop t _ _ _ _ h (n - seqs.length.factorial)
  unfold bestAfter
  rwa [Nat.add_sub_cancel' hn] at this

/-! ### Merging a string with itself or with the empty string -/

theorem backtrack_loop_diag (s : Str) (dp : Table) :
    ∀ (fuel i : Nat) (acc : Str), i ≤ s.length → i ≤ fuel →
      backtrackLCS.loop s s dp (fuel + 1) i i acc = some (acc ++ (s.take i).reverse) := by
  intro fuel
  induction fuel with
  | zero =>
    intro i acc _ h
    have : i = 0 := by omega
    subst this
    unfold backtrackLCS.loop
    simp
  | succ n ih =>
    intro i acc hi h
    cases i with
    | zero =>
      unfold backtrackLCS.loop
      simp
    | succ k =>
      have hs : s[k]? = some s[k] := List.getElem?_eq_getElem (by omega)
      unfold backtrackLCS.loop
      rw [if_pos (by omega)]
      simp only [Nat.add_sub_cancel, hs, ↓reduceIte]
      rw [ih k _ (by omega) (by omega), take_succ_getElem (by omega : k < s.length)]
      simp only [List.reverse_append, List.reverse_singleton, List.singleton_append,
        List.append_assoc]

theorem backtrackLCS_self (s : Str) (dp : Table) : backtrackLCS s s dp = some s := by
  unfold backtrackLCS
  rw [backtrack_loop_diag s dp _ s.length [] (le_refl _) (by omega)]
  simp

theorem scsList_self : ∀ s : Str, scsList s s s = s := by
  intro s
  induction s with
  | nil => rfl
  | cons c s ih =>
    simp [scsList, ih]

theorem merge_self_eq (s : Str) (t : Int) : mergeTwoStrings s s t = some s := by
  obtain ⟨dp, hf, _⟩ := findLCS_eq s s t []
  unfold mergeTwoStrings
  simp only [hf, backtrackLCS_self]
  rw [buildSCS_eq, scsList_self]

theorem mergeTwoStrings_nil_left_eq (s : Str) (t : Int) : mergeTwoStrings [] s t = some s := by
  obtain ⟨_, lcs, _, _, h1, _, hm⟩ := mergeTwoStrings_eq [] s t
  rw [hm, List.sublist_nil.mp h1]
  simp [scsList]

theorem mergeTwoStrings_nil_right_eq (s : Str) (t : Int) : mergeTwoStrings s [] t = some s := by
  obtain ⟨_, lcs, _, _, _, h2, hm⟩ := mergeTwoStrings_eq s [] t
  rw [hm, List.sublist_nil.mp h2]
  simp [scsList]

/-! ### The body of a counted loop only runs for counters in its range -/

theorem forRange_guard {σ : Type} (body : Nat → σ → Option σ) (P : Nat → Prop)
    [DecidablePred P] :
    ∀ (n lo : Nat) (st : σ), (∀ k, lo ≤ k → k < lo + n → P k) →
      forRange (fun k s => if P k then body k s else none) lo n st = forRange body lo n st := by
  intro n
  induction n with
  | zero => intro lo st _; rfl
  | succ n ih =>
    intro lo st h
    unfold forRange
    simp only [if_pos (h lo (le_refl _) (by omega))]
    cases body lo st with
    | none => rfl
    | some st1 => exact ih (lo + 1) st1 (fun k hk1 hk2 => h k (by omega) (by omega))

theorem findLCS_row_guard (s1 s2 : Str) (band : Int) (i : Nat) (dp : Table) :
    findLCS.row s1 s2 band i dp =
      forRange (fun j d => if inBand band s2.length i j then findLCS.cell s1 s2 i j d else none)
        (max 1 (wrap32 ((i : Int) - band))).toNat
        (min (s2.length : Int) (wrap32 ((i : Int) + band)) + 1 - max 1 (wrap32 ((i : Int) - band))).toNat dp := by
  unfold findLCS.row
  symm
  apply forRange_guard
  intro k hk1 hk2
  unfold inBand
  omega


/-! ### The backtracker step by step, and the cells it reads -/

theorem wrap32_sub_of_ge {x : Int} (h1 : 2147483648 ≤ x) (h2 : x ≤ 4294967295) :
    wrap32 x = x - 4294967296 := by
  unfold wrap32
  omega

theorem loopReads_last_row (s1 s2 : Str) (dp : Table) (band : Int) (N : Nat)
    (hd : BandTable s1 s2 band dp) (hm1 : s1.length = N + 1) (hm2 : s2.length = N)
    (hz : ∀ j, j < N → s1[N]? ≠ s2[j]?)
    (h0 : ∀ j, bandVal s1 s2 band N j = 0 ∧ bandVal s1 s2 band (N + 1) j = 0) :
    ∀ (j fuel : Nat) (acc : Str) (reads : List (Nat × Nat)), j ≤ N → j ≤ fuel →
      ∃ reads1, backtrackLCS.loopReads s1 s2 dp (fuel + 1) (N + 1) j acc reads =
          some (acc, reads1) ∧
        ∀ c, (c ∈ reads ∨ (c = (N, 1) ∧ 1 ≤ j)) → c ∈ reads1 := by
  intro j
  induction j with
  | zero =>
    intro fuel acc reads _ _
    refine ⟨reads, ?_, ?_⟩
    · rw [backtrackLCS.loopReads, if_neg (by omega)]
    · rintro c (hc | ⟨_, hc⟩)
      · exact hc
      · omega
  | succ k ih =>
    intro fuel acc reads hj hf
    obtain ⟨fuel, rfl⟩ : ∃ f, fuel = f + 1 := ⟨fuel - 1, by omega⟩
    have hs1 : s1[N]? = some s1[N] := List.getElem?_eq_getElem (by omega)
    have hs2 : s2[k]? = some s2[k] := List.getElem?_eq_getElem (by omega)
    have hne : ¬ s1[N] = s2[k] := by
      intro h
      apply hz k (by omega)
      rw [hs1, hs2, h]
    have hu := hd.2 N (k + 1) (by omega) (by omega)
    have hl := hd.2 (N + 1) k (by omega) (by omega)
    rw [(h0 (k + 1)).1] at hu
    rw [(h0 k).2] at hl
    obtain ⟨reads1, e, hmem⟩ := ih fuel acc (reads ++ [(N, k + 1), (N + 1, k)]) (by omega)
      (by omega)
    refine ⟨reads1, ?_, ?_⟩
    · rw [backtrackLCS.loopReads, if_pos (by omega)]
      simp only [Nat.add_sub_cancel, hs1, hs2, hu, hl, if_neg hne, gt_iff_lt, lt_self_iff_false,
        ↓reduceIte]
      exact e
    · rintro c (hc | ⟨hc, _⟩)
      · exact hmem c (Or.inl (List.mem_append_left _ hc))
      · by_cases hk : k = 0
        · subst hk
          apply hmem c
          left
          rw [hc]
          simp
        · exact hmem c (Or.inr ⟨hc, by omega⟩)

theorem reads_outside_band_of_overflow (N : Nat) (T : Int) (hT : 1 ≤ T)
    (hb1 : 2 * T + 2 ≤ 2147483647) (hov : 2147483648 ≤ (N : Int) + (2 * T + 2))
    (hN : (N : Int) + 1 ≤ 2147483647) (hout : 1 < (N : Int) - (2 * T + 2)) :
    (0 : Int) ≤ T ∧
      (List.replicate N 'x' ++ ['z']).Sublist (List.replicate N 'x' ++ ['z']) ∧
      (List.replicate N 'x').Sublist (List.replicate N 'x' ++ ['z']) ∧
      (((List.replicate N 'x' ++ ['z']).length : Int) -
        (List.replicate N 'x' ++ ['z']).length ≤ T) ∧
      (((List.replicate N 'x' ++ ['z']).length : Int) - (List.replicate N 'x').length ≤ T) ∧
      ∃ reads, backtrackReads (List.replicate N 'x' ++ ['z']) (List.replicate N 'x') T =
          some reads ∧
        ∃ c ∈ reads, 1 ≤ c.1 ∧ 1 ≤ c.2 ∧
          ¬ (max 1 ((c.1 : Int) - (2 * T + 2)) ≤ (c.2 : Int) ∧
            (c.2 : Int) ≤ min ((List.replicate N 'x').length : Int)
              ((c.1 : Int) + (2 * T + 2))) := by
  have hm1 : (List.replicate N 'x' ++ ['z']).length = N + 1 := by
    rw [List.length_append, List.length_replicate]
    rfl
  have hm2 : (List.replicate N 'x').length = N := List.length_replicate _ _
  have hbo : bandOf T = 2 * T + 2 := bandOf_eq (by omega) hb1
  refine ⟨by omega, List.Sublist.refl _, List.sublist_append_left _ _, ?_, ?_, ?_⟩
  · omega
  · rw [hm1, hm2]
    push_cast
    omega
  · obtain ⟨dp, hf, hb⟩ := findLCS_eq (List.replicate N 'x' ++ ['z']) (List.replicate N 'x') T []
    have hz : ∀ j, j < N →
        (List.replicate N 'x' ++ ['z'])[N]? ≠ (List.replicate N 'x')[j]? := by
      intro j hj
      rw [List.getElem?_append_right (by rw [hm2]), hm2, Nat.sub_self,
        List.getElem?_replicate, if_pos hj]
      decide
    have h0 : ∀ j, bandVal (List.replicate N 'x' ++ ['z']) (List.replicate N 'x') (bandOf T) N j
          = 0 ∧
        bandVal (List.replicate N 'x' ++ ['z']) (List.replicate N 'x') (bandOf T) (N + 1) j
          = 0 := by
      intro j
      constructor
      · apply bandVal_of_not_inBand
        unfold inBand
        rw [hbo, wrap32_sub_of_ge (x := (N : Int) + (2 * T + 2)) hov (by omega)]
        omega
      · apply bandVal_of_not_inBand
        unfold inBand
        rw [hbo, wrap32_sub_of_ge (x := ((N + 1 : Nat) : Int) + (2 * T + 2))
          (by push_cast; omega) (by push_cast; omega)]
        omega
    obtain ⟨reads, e, hmem⟩ := loopReads_last_row _ _ dp (bandOf T) N hb hm1 hm2 hz h0 N
      (N + 1 + N) [] [] (le_refl _) (by omega)
    refine ⟨reads, ?_, (N, 1), hmem _ (Or.inr ⟨rfl, by omega⟩), by simp only; omega,
      le_refl _, ?_⟩
    · unfold backtrackReads
      rw [hf]
      simp only [hm1, hm2]
      rw [e]
    · simp only
      omega


/-! ## The claims -/

/-- C1: for all strings `s1`, `s2` and `lcs` such that `lcs` is a subsequence of `s1` and of
`s2`, `buildSCS s1 s2 lcs` returns a string that contains `s1` as a subsequence, contains
`s2` as a subsequence, and has length at most `len(s1) + len(s2) - len(lcs)`. -/
theorem buildSCS_supersequence (s1 s2 lcs : Str) (h1 : lcs.Sublist s1) (h2 : lcs.Sublist s2) :
    ∃ r, buildSCS s1 s2 lcs = some r ∧ s1.Sublist r ∧ s2.Sublist r ∧
      r.length ≤ s1.length + s2.length - lcs.length := by
  obtain ⟨ha, hb, hlen⟩ := scsList_spec lcs s1 s2 h1 h2
  exact ⟨_, buildSCS_eq s1 s2 lcs, ha, hb, by omega⟩

/-- Witness for C1 at `s1 = "ABCBDAB"`, `s2 = "BDCABA"`, `lcs = "BCBA"`. -/
theorem buildSCS_supersequence_witness :
    "BCBA".toList.Sublist "ABCBDAB".toList ∧ "BCBA".toList.Sublist "BDCABA".toList ∧
      ∃ r, buildSCS "ABCBDAB".toList "BDCABA".toList "BCBA".toList = some r ∧
        "ABCBDAB".toList.Sublist r ∧ "BDCABA".toList.Sublist r ∧
        r.length ≤ "ABCBDAB".toList.length + "BDCABA".toList.length - "BCBA".toList.length :=
  ⟨by decide, by decide,
    buildSCS_supersequence "ABCBDAB".toList "BDCABA".toList "BCBA".toList (by decide) (by decide)⟩

/-- C2: for all strings `s1`, `s2` and every integer threshold `t` (however narrow its band)
and whatever the table held before, `findLCS s1 s2 t` returns a table on which
`backtrackLCS` returns a string that is a subsequence of `s1` and a subsequence of `s2`. -/
theorem backtrackLCS_common_subsequence (s1 s2 : Str) (t : Int) (dp0 : Table) :
    ∃ n dp lcs, findLCS s1 s2 t dp0 = some (n, dp) ∧ backtrackLCS s1 s2 dp = some lcs ∧
      lcs.Sublist s1 ∧ lcs.Sublist s2 := by
  obtain ⟨dp, hf, hb⟩ := findLCS_eq s1 s2 t dp0
  obtain ⟨lcs, hl, h1, h2⟩ := backtrackLCS_sublist s1 s2 dp hb.1
  exact ⟨_, dp, lcs, hf, hl, h1, h2⟩

/-- C6: for every non-empty list of strings `seqs` and every integer threshold `t`,
`mergeAllSeq seqs t` returns a string that contains every string of `seqs` as a
subsequence. -/
theorem mergeAllSeq_common_supersequence (seqs : List Str) (t : Int) (hne : seqs ≠ []) :
    ∃ r, mergeAllSeq seqs t = some r ∧ ∀ s ∈ seqs, s.Sublist r :=
  mergeAllSeq_super seqs t hne

/-- Witness for C6 at `seqs = ["AGGTAB", "GXTXAYB", "AGGTAB"]` with the degenerate
threshold `t = -3`. -/
theorem mergeAllSeq_common_supersequence_witness :
    ["AGGTAB".toList, "GXTXAYB".toList, "AGGTAB".toList] ≠ [] ∧
      ∃ r, mergeAllSeq ["AGGTAB".toList, "GXTXAYB".toList, "AGGTAB".toList] (-3) = some r ∧
        ∀ s ∈ ["AGGTAB".toList, "GXTXAYB".toList, "AGGTAB".toList], s.Sublist r :=
  ⟨by decide,
    mergeAllSeq_common_supersequence
      ["AGGTAB".toList, "GXTXAYB".toList, "AGGTAB".toList] (-3) (by decide)⟩

/-- C7: for every list of input strings `seqs` and threshold `t`, the order search of
`main` (sort, then `do … while (next_permutation)`) ends with a best string that is
`mergeAllSeq p t` for some permutation `p` of `seqs`, and whose length is at most the
length of `mergeAllSeq q t` for every permutation `q` of `seqs`. -/
theorem orderSearch_minimum (seqs : List Str) (t : Int) :
    ∃ best, orderSearch seqs t = some best ∧
      (∃ p : List Str, p.Perm seqs ∧ mergeAllSeq p t = some best) ∧
      ∀ q : List Str, q.Perm seqs → ∃ r, mergeAllSeq q t = some r ∧ best.length ≤ r.length := by
  obtain ⟨b, p, hb, hp, hpb, hmin, _⟩ := orderSearch_spec seqs t
  refine ⟨b, hb, ⟨p, hp, by rw [mergeAllSeq_eq_chain, hpb]⟩, ?_⟩
  intro q hq
  exact ⟨chain t q, mergeAllSeq_eq_chain q t, hmin q hq⟩

/-- C8: for every list of input strings `seqs` and threshold `t`, the best string kept by
the order search equals `mergeAllSeq p t` where `p` is the lexicographically smallest
permutation of `seqs` among those whose chain merge has minimum length; and in the loop
body a candidate of exactly the length of `bestSCS` leaves `bestSCS` as it is. -/
theorem orderSearch_first_minimum (seqs : List Str) (t : Int) :
    (∃ (best : Str) (p : List Str), orderSearch seqs t = some best ∧ p.Perm seqs ∧
      mergeAllSeq p t = some best ∧
      ∀ q : List Str, q.Perm seqs → ∃ r, mergeAllSeq q t = some r ∧ best.length ≤ r.length ∧
        (r.length = best.length → p ≤ q)) ∧
    ∀ (curr : List Str) (bestSCS : Str), ∃ current, mergeAllSeq curr t = some current ∧
      (current.length = bestSCS.length → searchBody t curr bestSCS = some bestSCS) := by
  constructor
  · obtain ⟨b, p, hb, hp, hpb, hmin, hfirst⟩ := orderSearch_spec seqs t
    refine ⟨b, p, hb, hp, by rw [mergeAllSeq_eq_chain, hpb], ?_⟩
    intro q hq
    exact ⟨chain t q, mergeAllSeq_eq_chain q t, hmin q hq, hfirst q hq⟩
  · intro curr bestSCS
    refine ⟨chain t curr, mergeAllSeq_eq_chain curr t, ?_⟩
    intro hlen
    rw [searchBody_eq]
    unfold keepBest
    cases bestSCS with
    | nil =>
      have : chain t curr = [] := List.length_eq_zero.mp hlen
      rw [this]
      rfl
    | cons a l =>
      simp [hlen]

/-- C9: for every list of input strings, every threshold `t` and every `n ≥ 1`, the best
string tracked by the order search loop after the first `n + 1` permutations is no longer
than the best string tracked after the first `n` permutations. -/
theorem bestAfter_length_antitone (seqs : List Str) (t : Int) (n : Nat) (hn : 1 ≤ n) :
    ∃ b b1, bestAfter seqs t n = some b ∧ bestAfter seqs t (n + 1) = some b1 ∧
      b1.length ≤ b.length := by
  obtain ⟨m, rfl⟩ : ∃ m, n = m + 1 := ⟨n - 1, by omega⟩
  have hc := sortSeqs_perm seqs
  have hj : keepBest [] (chain t (sortSeqs seqs)) ≠ [] ∨
      ∀ q : List Str, q.Perm seqs → chain t q = [] := by
    by_cases h0 : chain t (sortSeqs seqs) = []
    · exact Or.inr (fun q hq => chain_nil_of_perm t hc hq h0)
    · exact Or.inl h0
  unfold bestAfter
  rcases hnp : nextPermutation (sortSeqs seqs) with ⟨next, flag⟩
  cases flag with
  | true =>
    obtain ⟨hperm, _, _⟩ := nextPermutation_true hnp
    obtain ⟨b, b1, e1, e2, hle⟩ :=
      searchPasses_succ_le seqs t m next (keepBest [] (chain t (sortSeqs seqs)))
        (hperm.trans hc) hj
    refine ⟨b, b1, ?_, ?_, hle⟩
    · rw [searchPasses, searchBody_eq]
      simp only [hnp]
      exact e1
    · rw [searchPasses, searchBody_eq]
      simp only [hnp]
      exact e2
  | false =>
    refine ⟨keepBest [] (chain t (sortSeqs seqs)), keepBest [] (chain t (sortSeqs seqs)),
      ?_, ?_, le_refl _⟩
    · rw [searchPasses, searchBody_eq]
      simp only [hnp]
    · rw [searchPasses, searchBody_eq]
      simp only [hnp]

/-- Witness for C9 at `seqs = ["ab", "ba", "b"]`, `t = 0`, `n = 2`. -/
theorem bestAfter_length_antitone_witness :
    1 ≤ 2 ∧ ∃ b b1, bestAfter ["ab".toList, "ba".toList, "b".toList] 0 2 = some b ∧
      bestAfter ["ab".toList, "ba".toList, "b".toList] 0 (2 + 1) = some b1 ∧
      b1.length ≤ b.length :=
  ⟨by decide,
    bestAfter_length_antitone ["ab".toList, "ba".toList, "b".toList] 0 2 (by decide)⟩

/-- C11: for the input sequences `"AGGTAB"`, `"GXTXAYB"`, `"AGGTAB"` with `t = 10`, the
length of the order search best string does not exceed the length of the string obtained by
merging only the two distinct sequences with `mergeTwoStrings` at `t = 10`, in either
argument order, and some permutation of the input has a chain merge of exactly that
length. -/
theorem orderSearch_duplicate_scenario :
    ∃ best r1 r2, orderSearch ["AGGTAB".toList, "GXTXAYB".toList, "AGGTAB".toList] 10 = some best ∧
      mergeTwoStrings "AGGTAB".toList "GXTXAYB".toList 10 = some r1 ∧
      mergeTwoStrings "GXTXAYB".toList "AGGTAB".toList 10 = some r2 ∧
      best.length ≤ r1.length ∧ best.length ≤ r2.length ∧
      ∃ (p : List Str) (r : Str),
        p.Perm ["AGGTAB".toList, "GXTXAYB".toList, "AGGTAB".toList] ∧
        mergeAllSeq p 10 = some r ∧ r.length = r1.length ∧ r.length = r2.length := by
  refine ⟨"AGGXTXAYB".toList, "AGGXTXAYB".toList, "AGXGTXAYB".toList, ?_, ?_, ?_, ?_, ?_,
    ["AGGTAB".toList, "AGGTAB".toList, "GXTXAYB".toList], "AGGXTXAYB".toList, ?_, ?_, ?_, ?_⟩
  · decide
  · decide
  · decide
  · decide
  · decide
  · decide
  · decide
  · decide
  · decide

/-- C12: for every string `s` and every `t ≥ 0`, `mergeTwoStrings s s t` returns `s`
itself (no extra character is inserted). -/
theorem mergeTwoStrings_self (s : Str) (t : Int) (_ht : 0 ≤ t) :
    mergeTwoStrings s s t = some s :=
  merge_self_eq s t

/-- Witness for C12 at `s = "abc"`, `t = 0`. -/
theorem mergeTwoStrings_self_witness :
    (0 : Int) ≤ 0 ∧ mergeTwoStrings "abc".toList "abc".toList 0 = some "abc".toList :=
  ⟨by decide, mergeTwoStrings_self "abc".toList 0 (by decide)⟩

/-- C13: for every string `s` and every `t ≥ 0`, `mergeTwoStrings "" s t` and
`mergeTwoStrings s "" t` both return `s`, `findLCS` returns 0 when either argument is
empty, and `mergeTwoStrings "" "" t` returns the empty string. -/
theorem mergeTwoStrings_empty (s : Str) (t : Int) (_ht : 0 ≤ t) :
    mergeTwoStrings [] s t = some s ∧ mergeTwoStrings s [] t = some s ∧
      (∀ dp0, ∃ dp, findLCS [] s t dp0 = some (0, dp)) ∧
      (∀ dp0, ∃ dp, findLCS s [] t dp0 = some (0, dp)) ∧
      mergeTwoStrings [] [] t = some [] := by
  refine ⟨mergeTwoStrings_nil_left_eq s t, mergeTwoStrings_nil_right_eq s t, ?_, ?_,
    mergeTwoStrings_nil_left_eq [] t⟩
  · intro dp0
    obtain ⟨dp, hf, _⟩ := findLCS_eq [] s t dp0
    refine ⟨dp, ?_⟩
    rw [hf]
    simp only [List.length_nil, bandVal_zero_left]
  · intro dp0
    obtain ⟨dp, hf, _⟩ := findLCS_eq s [] t dp0
    refine ⟨dp, ?_⟩
    rw [hf]
    simp only [List.length_nil, bandVal_zero_right]

/-- Witness for C13 at `s = "abc"`, `t = 0`. -/
theorem mergeTwoStrings_empty_witness :
    (0 : Int) ≤ 0 ∧ mergeTwoStrings [] "abc".toList 0 = some "abc".toList ∧
      mergeTwoStrings "abc".toList [] 0 = some "abc".toList ∧
      (∀ dp0, ∃ dp, findLCS [] "abc".toList 0 dp0 = some (0, dp)) ∧
      (∀ dp0, ∃ dp, findLCS "abc".toList [] 0 dp0 = some (0, dp)) ∧
      mergeTwoStrings [] [] 0 = some [] :=
  ⟨by decide, mergeTwoStrings_empty "abc".toList 0 (by decide)⟩

/-- C14: for every `t ≥ 0`, `mergeAllSeq` on a list with fewer than two strings performs no
merge: `mergeAllSeq [] t` returns the empty string and `mergeAllSeq [s] t` returns `s`. -/
theorem mergeAllSeq_short (t : Int) (_ht : 0 ≤ t) :
    mergeAllSeq [] t = some [] ∧ ∀ s : Str, mergeAllSeq [s] t = some s := by
  constructor
  · rfl
  · intro s
    rfl

/-- Witness for C14 at `t = 0`. -/
theorem mergeAllSeq_short_witness :
    (0 : Int) ≤ 0 ∧ mergeAllSeq [] 0 = some [] ∧ ∀ s : Str, mergeAllSeq [s] 0 = some s :=
  ⟨by decide, mergeAllSeq_short 0 (by decide)⟩

/-- C18: for all strings `s1`, `s2` and every integer `t` (with or without overflow of the
32-bit band arithmetic), `mergeTwoStrings s1 s2 t` returns a string: no loop of `findLCS`, `backtrackLCS` or
`buildSCS` runs out of fuel and no bounds-checked string or table access fails; `buildSCS`
returns for every `lcs` argument, common subsequence or not; and the loop counters of
`findLCS` never fall below 1, so `i - 1` and `j - 1` are genuine indices. -/
theorem mergeTwoStrings_total (s1 s2 : Str) (t : Int) :
    (∃ r, mergeTwoStrings s1 s2 t = some r) ∧
      (∀ dp0, ∃ n dp lcs, findLCS s1 s2 t dp0 = some (n, dp) ∧
        backtrackLCS s1 s2 dp = some lcs) ∧
      (∀ lcs, ∃ r, buildSCS s1 s2 lcs = some r) ∧
      (∀ (band : Int) (i : Nat) (dp : Table),
        findLCS.row s1 s2 band i dp =
          forRange (fun j d => if 1 ≤ j then findLCS.cell s1 s2 i j d else none)
            (max 1 (wrap32 ((i : Int) - band))).toNat
            (min (s2.length : Int) (wrap32 ((i : Int) + band)) + 1 -
              max 1 (wrap32 ((i : Int) - band))).toNat dp) ∧
      ∀ (band : Int) (dp : Table),
        forRange (fun i d => findLCS.row s1 s2 band i d) 1 s1.length dp =
          forRange (fun i d => if 1 ≤ i then findLCS.row s1 s2 band i d else none)
            1 s1.length dp := by
  refine ⟨?_, ?_, ?_, ?_, ?_⟩
  · obtain ⟨_, lcs, _, _, _, _, hm⟩ := mergeTwoStrings_eq s1 s2 t
    exact ⟨_, hm⟩
  · intro dp0
    obtain ⟨dp, hf, hb⟩ := findLCS_eq s1 s2 t dp0
    obtain ⟨lcs, hl, _, _⟩ := backtrackLCS_sublist s1 s2 dp hb.1
    exact ⟨_, dp, lcs, hf, hl⟩
  · intro lcs
    exact ⟨_, buildSCS_eq s1 s2 lcs⟩
  · intro band i dp
    unfold findLCS.row
    exact (forRange_guard _ (fun j => 1 ≤ j) _ _ dp (fun k hk _ => by omega)).symm
  · intro band dp
    exact (forRange_guard _ (fun i => 1 ≤ i) _ _ dp (fun k hk _ => hk)).symm

/-- C20: for all strings `s1`, `s2` and every integer `t`, however narrow the band, every
cell of the table filled by `findLCS s1 s2 t` is at most the length of a longest common
subsequence of the corresponding prefixes, and the value returned by `findLCS` is at most
the LCS length of `s1` and `s2`. -/
theorem findLCS_underestimates (s1 s2 : Str) (t : Int) (dp0 : Table) :
    ∃ n dp, findLCS s1 s2 t dp0 = some (n, dp) ∧
      (∃ L : Nat, IsLCSLength s1 s2 L ∧ n ≤ (L : Int)) ∧
      ∀ i j, i ≤ s1.length → j ≤ s2.length →
        ∃ (v : Int) (L : Nat), readCell dp i j = some v ∧
          IsLCSLength (s1.take i) (s2.take j) L ∧ v ≤ (L : Int) := by
  obtain ⟨dp, hf, hb⟩ := findLCS_eq s1 s2 t dp0
  refine ⟨_, dp, hf, ⟨_, isLCSLength_full s1 s2, (bandVal_le_lcsVal s1 s2 _ _ _).2⟩, ?_⟩
  intro i j hi hj
  exact ⟨_, _, hb.2 i j hi hj, lcsVal_isLCSLength s1 s2 i j hi hj,
    (bandVal_le_lcsVal s1 s2 _ i j).2⟩

/-- The deletion hypothesis of C3 and C4 alone does not keep the reads of the backtracker
inside the band once the 32-bit band arithmetic overflows while the band is narrower than
the table: for `s2` made of 1500000000 characters `x`, `s1 = u = s2 ++ "z"` and
`t = 400000000`, the sum `i + band` overflows in every row `i ≥ 1347483646`; these rows stay zero,
and the backtracker walks along the last row and reads `dp[1500000000][1]`, left of
`max(1, 1500000000 - 800000002)`. -/
theorem reads_leave_band_on_overflow :
    (0 : Int) ≤ 400000000 ∧
      (List.replicate 1500000000 'x' ++ ['z']).Sublist (List.replicate 1500000000 'x' ++ ['z']) ∧
      (List.replicate 1500000000 'x').Sublist (List.replicate 1500000000 'x' ++ ['z']) ∧
      (((List.replicate 1500000000 'x' ++ ['z']).length : Int) -
        (List.replicate 1500000000 'x' ++ ['z']).length ≤ 400000000) ∧
      (((List.replicate 1500000000 'x' ++ ['z']).length : Int) -
        (List.replicate 1500000000 'x').length ≤ 400000000) ∧
      ∃ reads, backtrackReads (List.replicate 1500000000 'x' ++ ['z'])
          (List.replicate 1500000000 'x') 400000000 = some reads ∧
        ∃ c ∈ reads, 1 ≤ c.1 ∧ 1 ≤ c.2 ∧
          ¬ (max 1 ((c.1 : Int) - (2 * 400000000 + 2)) ≤ (c.2 : Int) ∧
            (c.2 : Int) ≤ min ((List.replicate 1500000000 'x').length : Int)
              ((c.1 : Int) + (2 * 400000000 + 2))) :=
  reads_outside_band_of_overflow 1500000000 400000000 (by decide) (by decide) (by decide)
    (by decide) (by decide)

/-- C19: chain merging depends on the order: for the three strings `"a"`, `"b"`, `"ab"` and
`t = 1`, whose band `2t + 2 = 4` is at least the length of every operand of every pairwise
merge involved, the arrangements `["a", "b", "ab"]` and `["b", "a", "ab"]` have chain
merges of different lengths. -/
theorem mergeAllSeq_order_dependent :
    ∃ (seqs p q : List Str) (t : Int) (mp rp mq rq : Str),
      seqs.length = 3 ∧ 0 ≤ t ∧ p.Perm seqs ∧ q.Perm seqs ∧
      p = ["a".toList, "b".toList, "ab".toList] ∧ q = ["b".toList, "a".toList, "ab".toList] ∧
      mergeTwoStrings "a".toList "b".toList t = some mp ∧
      mergeTwoStrings mp "ab".toList t = some rp ∧ mergeAllSeq p t = some rp ∧
      mergeTwoStrings "b".toList "a".toList t = some mq ∧
      mergeTwoStrings mq "ab".toList t = some rq ∧ mergeAllSeq q t = some rq ∧
      (∀ s ∈ ["a".toList, "b".toList, "ab".toList, mp, mq], (s.length : Int) ≤ 2 * t + 2) ∧
      rp.length ≠ rq.length := by
  refine ⟨["a".toList, "b".toList, "ab".toList], ["a".toList, "b".toList, "ab".toList],
    ["b".toList, "a".toList, "ab".toList], 1, "ab".toList, "ab".toList, "ba".toList,
    "bab".toList, ?_, ?_, ?_, ?_, rfl, rfl, ?_, ?_, ?_, ?_, ?_, ?_, ?_, ?_⟩
  all_goals decide

end BandedSCS

